import Mathlib

/-!
# Verification of a Reed-Solomon codec over GF(q)

This file gives a shallow embedding of a pure-Python Reed-Solomon
encoder/decoder (`reedsolo.py`, class `RSCodec`) and proves properties of the
embedded program.  The codec is parameterised by a field size `q = n + 1`
(one of fifteen supported powers of two, each mapped to a primitive
polynomial constant) and a redundancy length `nsym`.

Conventions used throughout the embedding:
* Python lists of symbols become `List Nat` (decoder input is `List Int`
  because negative entries are erasure sentinels).
* Python exceptions become an explicit `Except RSError` result.
* Python list indexing that is always in bounds in the modelled executions
  is translated with `List.getD _ _ 0`.
-/

set_option maxRecDepth 200000
set_option maxHeartbeats 4000000

namespace Reedsolo

/-- The `_gf_poly` dictionary of the source: a supported field size is mapped
to its primitive polynomial constant; unsupported sizes (a `KeyError` in
Python) are mapped to the junk value `0`, which no claim exercises. -/
def _gf_poly (q : Nat) : Nat :=
  match q with
  | 4 => 7
  | 8 => 11
  | 16 => 19
  | 32 => 37
  | 64 => 67
  | 128 => 137
  | 256 => 285
  | 512 => 529
  | 1024 => 1033
  | 2048 => 2053
  | 4096 => 4179
  | 8192 => 8219
  | 16384 => 17475
  | 32768 => 32771
  | 65536 => 69643
  | _ => 0

/-- The supported field sizes: the keys of `_gf_poly`. -/
def supported_sizes : List Nat :=
  [4, 8, 16, 32, 64, 128, 256, 512, 1024, 2048, 4096, 8192, 16384, 32768, 65536]

/-- One iteration of the table-generation loop of `calc_gf_elements`:
`x <<= 1; if x & q: x ^= poly`.  (`cond` is used instead of an `if` so that
the kernel evaluates the primitivity check below cheaply; `gfStep_eq_ite`
restates it as an `if`.) -/
def gfStep (q poly x : Nat) : Nat :=
  let y := x <<< 1
  cond (y &&& q != 0) (y ^^^ poly) y

theorem gfStep_eq_ite (q poly x : Nat) :
    gfStep q poly x =
      if (x <<< 1) &&& q ≠ 0 then (x <<< 1) ^^^ poly else (x <<< 1) := by
  show (cond ((x <<< 1) &&& q != 0) ((x <<< 1) ^^^ poly) (x <<< 1)) =
    if (x <<< 1) &&& q ≠ 0 then (x <<< 1) ^^^ poly else (x <<< 1)
  by_cases h : (x <<< 1) &&& q = 0
  · have hb : ((x <<< 1) &&& q != 0) = false := by simpa using h
    rw [hb, if_neg (by simpa using h)]
    rfl
  · have hb : ((x <<< 1) &&& q != 0) = true := by simpa using h
    rw [hb, if_pos (by simpa using h)]
    rfl

/-- The value `xpow q t` is the value of the loop variable `x` of `calc_gf_elements`
after `t` iterations, i.e. the `t`-th power of the generator `α = 2`. -/
def xpow (q : Nat) : Nat → Nat
  | 0 => 1
  | t + 1 => gfStep q (_gf_poly q) (xpow q t)

/-- The iterate `stepIter q poly k x`: `k` applications of `gfStep` to `x`
(accumulator-style so that kernel evaluation is stack friendly). -/
def stepIter (q poly : Nat) (k : Nat) (x : Nat) : Nat :=
  Nat.rec (motive := fun _ => Nat → Nat)
    (fun x => x)
    (fun _ ih x => ih (gfStep q poly x))
    k x

/-- Run `k` steps of the generator orbit starting from `x`, returning `0` as
a failure sentinel if any intermediate state equals `1`, and the final state
otherwise. -/
def injBlock (q poly : Nat) (k : Nat) (x : Nat) : Nat :=
  Nat.rec (motive := fun _ => Nat → Nat)
    (fun x => x)
    (fun _ ih x =>
      let y := gfStep q poly x
      cond (y == 1) 0 (ih y))
    k x

/-- Run `m` blocks of 64 orbit steps, propagating the failure sentinel. -/
def injBlocks (q poly : Nat) (m : Nat) (x : Nat) : Nat :=
  Nat.rec (motive := fun _ => Nat → Nat)
    (fun x => x)
    (fun _ ih x =>
      let y := injBlock q poly 64 x
      cond (y == 0) 0 (ih y))
    m x

/-- Decides that the orbit `α, α², …, α^(q-2)` of the table-generation loop
never returns to `1`, i.e. that `α = 2` generates the whole multiplicative
group (executed blockwise so the kernel can evaluate it without deep
recursion). -/
def injCheck (q : Nat) : Bool :=
  let poly := _gf_poly q
  injBlock q poly ((q - 2) % 64) (injBlocks q poly ((q - 2) / 64) 1) != 0

/-- The facts about a supported field size that the development uses:
the size is a power of two at least 4, the primitive polynomial constant is
an odd number with exactly the bit of `q` above the field range, and the
generator orbit check of `injCheck` passes. -/
structure GoodQ (q : Nat) : Prop where
  four_le : 4 ≤ q
  pow2 : ∃ m, q = 2 ^ m
  poly_lb : q ≤ _gf_poly q
  poly_ub : _gf_poly q < 2 * q
  poly_odd : _gf_poly q % 2 = 1
  inj : injCheck q = true

theorem gfStep_zero (q poly : Nat) : gfStep q poly 0 = 0 := by
  simp [gfStep]

theorem stepIter_succ_inner (q poly : Nat) (k x : Nat) :
    stepIter q poly (k + 1) x = stepIter q poly k (gfStep q poly x) := rfl

theorem stepIter_succ_outer (q poly : Nat) (k x : Nat) :
    stepIter q poly (k + 1) x = gfStep q poly (stepIter q poly k x) := by
  induction k generalizing x with
  | zero => rfl
  | succ k ih =>
      rw [stepIter_succ_inner, ih, stepIter_succ_inner]

theorem stepIter_add (q poly : Nat) (a b x : Nat) :
    stepIter q poly (a + b) x = stepIter q poly b (stepIter q poly a x) := by
  induction a generalizing x with
  | zero => rw [Nat.zero_add]; rfl
  | succ a ih =>
      have h1 : a + 1 + b = (a + b) + 1 := by omega
      rw [h1, stepIter_succ_inner, ih, stepIter_succ_inner]

theorem xpow_eq_stepIter (q : Nat) (t : Nat) :
    xpow q t = stepIter q (_gf_poly q) t 1 := by
  induction t with
  | zero => rfl
  | succ t ih => rw [xpow, ih, stepIter_succ_outer]

theorem injBlock_sound (q poly : Nat) :
    ∀ k x, injBlock q poly k x ≠ 0 →
      injBlock q poly k x = stepIter q poly k x ∧
        ∀ j, 1 ≤ j → j ≤ k → stepIter q poly j x ≠ 1 := by
  intro k
  induction k with
  | zero =>
      intro x _
      exact ⟨rfl, by omega⟩
  | succ k ih =>
      intro x hne
      have hstep : injBlock q poly (k + 1) x =
          cond (gfStep q poly x == 1) 0 (injBlock q poly k (gfStep q poly x)) := rfl
      by_cases h1 : gfStep q poly x = 1
      · rw [hstep, h1] at hne
        simp at hne
      · have hbeq : (gfStep q poly x == 1) = false := by
          simp [h1]
        rw [hstep, hbeq] at hne ⊢
        simp only [cond_false] at hne ⊢
        obtain ⟨heq, hall⟩ := ih (gfStep q poly x) hne
        refine ⟨by rw [heq, stepIter_succ_inner], ?_⟩
        intro j hj1 hj2
        match j, hj1 with
        | 1, _ =>
            rw [stepIter_succ_inner]
            simpa using h1
        | j + 2, _ =>
            rw [stepIter_succ_inner]
            exact hall (j + 1) (by omega) (by omega)

theorem injBlock_of_zero (q poly : Nat) : ∀ k, injBlock q poly k 0 = 0 := by
  intro k
  induction k with
  | zero => rfl
  | succ k ih =>
      have hstep : injBlock q poly (k + 1) 0 =
          cond (gfStep q poly 0 == 1) 0 (injBlock q poly k (gfStep q poly 0)) := rfl
      rw [hstep, gfStep_zero]
      simpa using ih

theorem injBlocks_sound (q poly : Nat) :
    ∀ m x, injBlocks q poly m x ≠ 0 →
      injBlocks q poly m x = stepIter q poly (64 * m) x ∧
        ∀ j, 1 ≤ j → j ≤ 64 * m → stepIter q poly j x ≠ 1 := by
  intro m
  induction m with
  | zero =>
      intro x _
      exact ⟨rfl, by omega⟩
  | succ m ih =>
      intro x hne
      have hstep : injBlocks q poly (m + 1) x =
          cond (injBlock q poly 64 x == 0) 0 (injBlocks q poly m (injBlock q poly 64 x)) := rfl
      by_cases h0 : injBlock q poly 64 x = 0
      · rw [hstep, h0] at hne
        simp at hne
      · have hbeq : (injBlock q poly 64 x == 0) = false := by simp [h0]
        rw [hstep, hbeq] at hne ⊢
        simp only [cond_false] at hne ⊢
        obtain ⟨hbeq64, hall64⟩ := injBlock_sound q poly 64 x h0
        obtain ⟨heq, hall⟩ := ih (injBlock q poly 64 x) hne
        constructor
        · rw [heq, hbeq64, ← stepIter_add]
          ring_nf
        · intro j hj1 hj2
          by_cases hj64 : j ≤ 64
          · exact hall64 j hj1 hj64
          · have hj : j = 64 + (j - 64) := by omega
            rw [hj, stepIter_add, ← hbeq64]
            exact hall (j - 64) (by omega) (by omega)

theorem injCheck_sound (q : Nat) (h : injCheck q = true) :
    ∀ t, 1 ≤ t → t ≤ q - 2 → xpow q t ≠ 1 := by
  intro t ht1 ht2
  have hne : injBlock q (_gf_poly q) ((q - 2) % 64)
      (injBlocks q (_gf_poly q) ((q - 2) / 64) 1) ≠ 0 := by
    simpa [injCheck] using h
  have hz : injBlocks q (_gf_poly q) ((q - 2) / 64) 1 ≠ 0 := by
    intro h0
    rw [h0, injBlock_of_zero] at hne
    exact hne rfl
  obtain ⟨hbval, hball⟩ := injBlocks_sound q (_gf_poly q) ((q - 2) / 64) 1 hz
  obtain ⟨_, hrall⟩ := injBlock_sound q (_gf_poly q) ((q - 2) % 64) _ hne
  rw [xpow_eq_stepIter]
  by_cases hsmall : t ≤ 64 * ((q - 2) / 64)
  · exact hball t ht1 hsmall
  · have hrep : t = 64 * ((q - 2) / 64) + (t - 64 * ((q - 2) / 64)) := by omega
    have hmod : t - 64 * ((q - 2) / 64) ≤ (q - 2) % 64 := by omega
    rw [hrep, stepIter_add, ← hbval]
    exact hrall _ (by omega) hmod

/-- A number below `2^(m+1)` whose bit `m` is clear is below `2^m`. -/
theorem lt_pow_of_testBit_false {y m : Nat} (hy : y < 2 ^ (m + 1))
    (hbit : y.testBit m = false) : y < 2 ^ m := by
  by_contra hge
  push_neg at hge
  have hpos : (0 : Nat) < 2 ^ m := Nat.pos_pow_of_pos m (by norm_num)
  have hy2 : y < 2 * 2 ^ m := by
    rw [pow_succ] at hy
    omega
  have hlt : y / 2 ^ m < 2 := by
    rw [Nat.div_lt_iff_lt_mul hpos]
    omega
  have hge1 : 1 ≤ y / 2 ^ m := (Nat.one_le_div_iff hpos).2 hge
  have h1 : y / 2 ^ m = 1 := by omega
  rw [Nat.testBit_to_div_mod, h1] at hbit
  simp at hbit

/-- A number in `[2^m, 2^(m+1))` has bit `m` set. -/
theorem testBit_true_of_mem {y m : Nat} (h1 : 2 ^ m ≤ y) (h2 : y < 2 ^ (m + 1)) :
    y.testBit m = true := by
  have hpos : (0 : Nat) < 2 ^ m := Nat.pos_pow_of_pos m (by norm_num)
  have hy2 : y < 2 * 2 ^ m := by
    rw [pow_succ] at h2
    omega
  have hlt : y / 2 ^ m < 2 := by
    rw [Nat.div_lt_iff_lt_mul hpos]
    omega
  have hge : 1 ≤ y / 2 ^ m := (Nat.one_le_div_iff hpos).2 h1
  have hd : y / 2 ^ m = 1 := by omega
  rw [Nat.testBit_to_div_mod, hd]
  simp

/-- Under the `GoodQ` facts the table-generation step keeps values inside
the field range `[0, q)`. -/
theorem gfStep_lt {q : Nat} (hq : GoodQ q) {x : Nat} (hx : x < q) :
    gfStep q (_gf_poly q) x < q := by
  obtain ⟨m, rfl⟩ := hq.pow2
  rw [gfStep_eq_ite]
  have hy : x <<< 1 < 2 ^ (m + 1) := by
    rw [Nat.shiftLeft_eq]
    have h2 : (2 : Nat) ^ (m + 1) = 2 ^ m * 2 := pow_succ 2 m
    have h3 : x * 2 ^ 1 = x * 2 := by norm_num
    rw [h3, h2]
    omega
  have hplt : _gf_poly (2 ^ m) < 2 ^ (m + 1) := by
    have hub := hq.poly_ub
    rw [pow_succ]
    omega
  by_cases h : (x <<< 1) &&& 2 ^ m ≠ 0
  · rw [if_pos h]
    have hybit : (x <<< 1).testBit m = true := by
      rcases hb : (x <<< 1).testBit m with _ | _
      · rw [Nat.and_two_pow, hb] at h
        simp at h
      · rfl
    have hpbit : (_gf_poly (2 ^ m)).testBit m = true :=
      testBit_true_of_mem hq.poly_lb hplt
    have hxor : ((x <<< 1) ^^^ _gf_poly (2 ^ m)) < 2 ^ (m + 1) :=
      Nat.xor_lt_two_pow hy hplt
    have hxorbit : ((x <<< 1) ^^^ _gf_poly (2 ^ m)).testBit m = false := by
      rw [Nat.testBit_xor, hybit, hpbit]
      rfl
    exact lt_pow_of_testBit_false hxor hxorbit
  · rw [if_neg h]
    push_neg at h
    have hbit : (x <<< 1).testBit m = false := by
      rcases hb : (x <<< 1).testBit m with _ | _
      · rfl
      · rw [Nat.and_two_pow, hb] at h
        simp at h
    exact lt_pow_of_testBit_false hy hbit

/-- For an odd reduction polynomial the table-generation step is injective. -/
theorem gfStep_injective {q : Nat} (hodd : _gf_poly q % 2 = 1) {a b : Nat}
    (h : gfStep q (_gf_poly q) a = gfStep q (_gf_poly q) b) : a = b := by
  have h2 : ∀ c : Nat, c <<< 1 % 2 = 0 := by
    intro c
    rw [Nat.shiftLeft_eq]
    omega
  have hxodd : ∀ c : Nat, ((c <<< 1) ^^^ _gf_poly q) % 2 = 1 := by
    intro c
    have hb : ((c <<< 1) ^^^ _gf_poly q).testBit 0 = true := by
      rw [Nat.testBit_xor]
      rw [Nat.testBit_zero, Nat.testBit_zero, h2 c, hodd]
      rfl
    rw [Nat.testBit_zero] at hb
    simpa using hb
  have hdouble : ∀ c d : Nat, c <<< 1 = d <<< 1 → c = d := by
    intro c d hcd
    rw [Nat.shiftLeft_eq, Nat.shiftLeft_eq] at hcd
    omega
  rw [gfStep_eq_ite, gfStep_eq_ite] at h
  by_cases ha : (a <<< 1) &&& q ≠ 0 <;> by_cases hb : (b <<< 1) &&& q ≠ 0
  · rw [if_pos ha, if_pos hb] at h
    have : ((a <<< 1) ^^^ _gf_poly q) ^^^ _gf_poly q =
        ((b <<< 1) ^^^ _gf_poly q) ^^^ _gf_poly q := by rw [h]
    rw [Nat.xor_assoc, Nat.xor_self, Nat.xor_zero, Nat.xor_assoc, Nat.xor_self,
      Nat.xor_zero] at this
    exact hdouble _ _ this
  · rw [if_pos ha, if_neg hb] at h
    have h1 := hxodd a
    rw [h] at h1
    rw [h2 b] at h1
    simp at h1
  · rw [if_neg ha, if_pos hb] at h
    have h1 := hxodd b
    rw [← h] at h1
    rw [h2 a] at h1
    simp at h1
  · rw [if_neg ha, if_neg hb] at h
    exact hdouble _ _ h

theorem xpow_lt {q : Nat} (hq : GoodQ q) (t : Nat) : xpow q t < q := by
  induction t with
  | zero =>
      have := hq.four_le
      show 1 < q
      omega
  | succ t ih => exact gfStep_lt hq ih

theorem xpow_ne_zero {q : Nat} (hq : GoodQ q) (t : Nat) : xpow q t ≠ 0 := by
  induction t with
  | zero => simp [xpow]
  | succ t ih =>
      intro h0
      have : gfStep q (_gf_poly q) (xpow q t) = gfStep q (_gf_poly q) 0 := by
        rw [gfStep_zero]
        exact h0
      exact ih (gfStep_injective hq.poly_odd this)

theorem xpow_shift {q : Nat} (hq : GoodQ q) :
    ∀ a b, a ≤ b → xpow q a = xpow q b → xpow q 0 = xpow q (b - a) := by
  intro a
  induction a with
  | zero =>
      intro b _ h
      simpa using h
  | succ a ih =>
      intro b hab h
      match b, hab with
      | b + 1, _ =>
          have hstep : gfStep q (_gf_poly q) (xpow q a) = gfStep q (_gf_poly q) (xpow q b) := h
          have := ih b (by omega) (gfStep_injective hq.poly_odd hstep)
          simpa using this

theorem xpow_inj {q : Nat} (hq : GoodQ q) {s t : Nat} (hs : s < q - 1) (ht : t < q - 1)
    (h : xpow q s = xpow q t) : s = t := by
  rcases Nat.lt_trichotomy s t with hlt | heq | hgt
  · exfalso
    have h1 := xpow_shift hq s t (by omega) h
    have h2 : xpow q (t - s) = 1 := by
      rw [← h1]
      rfl
    exact injCheck_sound q hq.inj (t - s) (by omega) (by omega) h2
  · exact heq
  · exfalso
    have h1 := xpow_shift hq t s (by omega) h.symm
    have h2 : xpow q (s - t) = 1 := by
      rw [← h1]
      rfl
    exact injCheck_sound q hq.inj (s - t) (by omega) (by omega) h2

theorem xpow_surj {q : Nat} (hq : GoodQ q) {v : Nat} (hv1 : 1 ≤ v) (hv2 : v < q) :
    ∃ t, t < q - 1 ∧ xpow q t = v := by
  classical
  have hsub : (Finset.range (q - 1)).image (xpow q) ⊆ Finset.Ico 1 q := by
    intro y hy
    rw [Finset.mem_image] at hy
    obtain ⟨t, _, rfl⟩ := hy
    rw [Finset.mem_Ico]
    exact ⟨Nat.one_le_iff_ne_zero.2 (xpow_ne_zero hq t), xpow_lt hq t⟩
  have hcard : ((Finset.range (q - 1)).image (xpow q)).card = q - 1 := by
    rw [Finset.card_image_of_injOn, Finset.card_range]
    intro a ha b hb hab
    rw [Finset.coe_range, Set.mem_Iio] at ha hb
    exact xpow_inj hq ha hb hab
  have heq : (Finset.range (q - 1)).image (xpow q) = Finset.Ico 1 q := by
    apply Finset.eq_of_subset_of_card_le hsub
    rw [hcard, Nat.card_Ico]
  have hv : v ∈ Finset.Ico 1 q := Finset.mem_Ico.2 ⟨hv1, hv2⟩
  rw [← heq, Finset.mem_image] at hv
  obtain ⟨t, ht, hxt⟩ := hv
  exact ⟨t, Finset.mem_range.1 ht, hxt⟩

theorem getD_set_self {l : List Nat} {i : Nat} {a d : Nat} (h : i < l.length) :
    (l.set i a).getD i d = a := by
  rw [List.getD_eq_getElem?_getD, List.getElem?_set_self h]
  rfl

theorem getD_set_ne {l : List Nat} {i j : Nat} {a d : Nat} (h : i ≠ j) :
    (l.set i a).getD j d = l.getD j d := by
  rw [List.getD_eq_getElem?_getD, List.getElem?_set_ne h, ← List.getD_eq_getElem?_getD]

theorem getD_replicate {n : Nat} {a d : Nat} (i : Nat) :
    (List.replicate n a).getD i d = if i < n then a else d := by
  rw [List.getD_eq_getElem?_getD, List.getElem?_replicate]
  by_cases h : i < n <;> simp [h]

/-- One iteration of the table-filling loop of `calc_gf_elements`:
`x` is advanced by `gfStep`, `gf_exp[i] = x` and `gf_log[x] = i` are recorded.
The state is `(gf_exp, gf_log, x)`. -/
def calc_loop1 (q poly : Nat) (st : List Nat × List Nat × Nat) (i : Nat) :
    List Nat × List Nat × Nat :=
  let x := gfStep q poly st.2.2
  (st.1.set i x, st.2.1.set x i, x)

/-- One iteration of the wrap-around copy loop of `calc_gf_elements`:
`gf_exp[i] = gf_exp[i - n]`. -/
def calc_loop2 (n : Nat) (e : List Nat) (i : Nat) : List Nat :=
  e.set i (e.getD (i - n) 0)

/-- The `calc_gf_elements` table builder of the source: build `gf_exp` (initialised to `1`s,
length `2*q`) and `gf_log` (initialised to `0`s, length `q`), fill them with
the loop `for i in range(1, n)`, then copy `gf_exp[i] = gf_exp[i - n]` for
`i in range(n, q*2)`.  Returns the pair `(gf_exp, gf_log)`. -/
def calc_gf_elements (q : Nat) : List Nat × List Nat :=
  let n := q - 1
  let poly := _gf_poly q
  let st := (List.range' 1 (n - 1)).foldl (calc_loop1 q poly)
    (List.replicate (q * 2) 1, List.replicate q 0, 1)
  let e := (List.range' n (q * 2 - n)).foldl (calc_loop2 n) st.1
  (e, st.2.1)

def gf_exp (q : Nat) : List Nat := (calc_gf_elements q).1

def gf_log (q : Nat) : List Nat := (calc_gf_elements q).2

/-- The state of the table-filling loop after its first `m` iterations. -/
def loop1_state (q : Nat) (m : Nat) : List Nat × List Nat × Nat :=
  (List.range' 1 m).foldl (calc_loop1 q (_gf_poly q))
    (List.replicate (q * 2) 1, List.replicate q 0, 1)

theorem loop1_state_succ (q m : Nat) :
    loop1_state q (m + 1) = calc_loop1 q (_gf_poly q) (loop1_state q m) (1 + m) := by
  unfold loop1_state
  rw [List.range'_concat, List.foldl_append]
  simp

theorem loop1_invariant {q : Nat} (hq : GoodQ q) :
    ∀ m, m ≤ q - 2 →
      (loop1_state q m).2.2 = xpow q m ∧
      (loop1_state q m).1.length = q * 2 ∧
      (loop1_state q m).2.1.length = q ∧
      (∀ i, i < q * 2 → (loop1_state q m).1.getD i 0 =
          if 1 ≤ i ∧ i ≤ m then xpow q i else 1) ∧
      (∀ t, 1 ≤ t → t ≤ m → (loop1_state q m).2.1.getD (xpow q t) 0 = t) ∧
      (∀ v, (∀ t, 1 ≤ t → t ≤ m → xpow q t ≠ v) → (loop1_state q m).2.1.getD v 0 = 0) := by
  have hq4 := hq.four_le
  intro m
  induction m with
  | zero =>
      intro _
      refine ⟨rfl, by simp [loop1_state], by simp [loop1_state], ?_, ?_, ?_⟩
      · intro i hi
        show (List.replicate (q * 2) 1).getD i 0 = _
        rw [getD_replicate, if_pos hi, if_neg (by omega)]
      · intro t ht1 ht2
        omega
      · intro v _
        show (List.replicate q 0).getD v 0 = 0
        rw [getD_replicate]
        by_cases h : v < q <;> simp [h]
  | succ m ih =>
      intro hm
      obtain ⟨hx, hel, hll, hec, hl1, hl2⟩ := ih (by omega)
      rw [loop1_state_succ]
      set st := loop1_state q m with hst
      have hxnew : (calc_loop1 q (_gf_poly q) st (1 + m)).2.2 = xpow q (m + 1) := by
        show gfStep q (_gf_poly q) st.2.2 = xpow q (m + 1)
        rw [hx]
        rfl
      have hxval : gfStep q (_gf_poly q) st.2.2 = xpow q (m + 1) := hxnew
      refine ⟨hxnew, ?_, ?_, ?_, ?_, ?_⟩
      · show (st.1.set (1 + m) _).length = q * 2
        rw [List.length_set, hel]
      · show (st.2.1.set _ (1 + m)).length = q
        rw [List.length_set, hll]
      · intro i hi
        show (st.1.set (1 + m) (gfStep q (_gf_poly q) st.2.2)).getD i 0 = _
        rw [hxval]
        by_cases hieq : i = m + 1
        · subst hieq
          have hlen : 1 + m < st.1.length := by rw [hel]; omega
          have h1m : (1 : Nat) + m = m + 1 := by omega
          rw [h1m] at hlen ⊢
          rw [getD_set_self hlen, if_pos (by omega)]
        · have hne : 1 + m ≠ i := by omega
          rw [getD_set_ne hne, hec i hi]
          by_cases hc : 1 ≤ i ∧ i ≤ m
          · rw [if_pos hc, if_pos (by omega)]
          · rw [if_neg hc, if_neg (by omega)]
      · intro t ht1 ht2
        show (st.2.1.set (gfStep q (_gf_poly q) st.2.2) (1 + m)).getD (xpow q t) 0 = t
        rw [hxval]
        by_cases hteq : t = m + 1
        · subst hteq
          have hlen : xpow q (m + 1) < st.2.1.length := by
            rw [hll]
            exact xpow_lt hq (m + 1)
          rw [getD_set_self hlen]
          omega
        · have hne : xpow q (m + 1) ≠ xpow q t := by
            intro heq
            exact hteq (xpow_inj hq (by omega) (by omega) heq.symm)
          rw [getD_set_ne hne]
          exact hl1 t ht1 (by omega)
      · intro v hv
        show (st.2.1.set (gfStep q (_gf_poly q) st.2.2) (1 + m)).getD v 0 = 0
        rw [hxval]
        have hne : xpow q (m + 1) ≠ v := hv (m + 1) (by omega) (by omega)
        rw [getD_set_ne hne]
        exact hl2 v (fun t ht1 ht2 => hv t ht1 (by omega))

/-- The state of the wrap-around copy loop after its first `m` iterations. -/
def loop2_state (q : Nat) (m : Nat) : List Nat :=
  (List.range' (q - 1) m).foldl (calc_loop2 (q - 1)) (loop1_state q (q - 2)).1

theorem loop2_state_succ (q m : Nat) :
    loop2_state q (m + 1) = calc_loop2 (q - 1) (loop2_state q m) (q - 1 + m) := by
  unfold loop2_state
  rw [List.range'_concat, List.foldl_append]
  simp

theorem loop2_invariant {q : Nat} (hq : GoodQ q) :
    ∀ m, m ≤ q + 1 →
      (loop2_state q m).length = q * 2 ∧
      (∀ i, i < q * 2 → (loop2_state q m).getD i 0 =
          if i < q - 1 + m then xpow q (i % (q - 1)) else 1) := by
  have hq4 := hq.four_le
  obtain ⟨hx, hel, hll, hec, hl1, hl2⟩ := loop1_invariant hq (q - 2) (le_refl _)
  intro m
  induction m with
  | zero =>
      refine fun _ => ⟨hel, ?_⟩
      intro i hi
      show (loop1_state q (q - 2)).1.getD i 0 = _
      rw [hec i hi]
      by_cases h0 : i = 0
      · subst h0
        rw [if_neg (show ¬(1 ≤ 0 ∧ 0 ≤ q - 2) by omega),
          if_pos (show 0 < q - 1 + 0 by omega), Nat.zero_mod]
        rfl
      · by_cases hc : i < q - 1
        · rw [if_pos (show 1 ≤ i ∧ i ≤ q - 2 by omega),
            if_pos (show i < q - 1 + 0 by omega), Nat.mod_eq_of_lt (by omega)]
        · rw [if_neg (show ¬(1 ≤ i ∧ i ≤ q - 2) by omega),
            if_neg (show ¬(i < q - 1 + 0) by omega)]
  | succ m ih =>
      intro hm
      obtain ⟨hlen, hchar⟩ := ih (by omega)
      rw [loop2_state_succ]
      constructor
      · show ((loop2_state q m).set _ _).length = q * 2
        rw [List.length_set, hlen]
      · intro i hi
        show ((loop2_state q m).set (q - 1 + m)
          ((loop2_state q m).getD (q - 1 + m - (q - 1)) 0)).getD i 0 = _
        have hsub : q - 1 + m - (q - 1) = m := by omega
        rw [hsub]
        by_cases hieq : i = q - 1 + m
        · subst hieq
          have hlt : q - 1 + m < (loop2_state q m).length := by rw [hlen]; omega
          rw [getD_set_self hlt, hchar m (by omega), if_pos (by omega), if_pos (by omega)]
          have : (q - 1 + m) % (q - 1) = m % (q - 1) := by
            rw [Nat.add_mod_left]
          rw [this]
        · rw [getD_set_ne (by omega), hchar i hi]
          by_cases hc : i < q - 1 + m
          · rw [if_pos hc, if_pos (by omega)]
          · rw [if_neg hc, if_neg (by omega)]

theorem gf_exp_eq_loop2 (q : Nat) : gf_exp q = loop2_state q (q * 2 - (q - 1)) := rfl

theorem gf_log_eq_loop1 (q : Nat) : gf_log q = (loop1_state q (q - 2)).2.1 := rfl

/-- Length of the exponent table: `2*q` (as built by `calc_gf_elements`). -/
theorem gf_exp_length {q : Nat} (hq : GoodQ q) : (gf_exp q).length = q * 2 := by
  rw [gf_exp_eq_loop2]
  exact (loop2_invariant hq (q * 2 - (q - 1)) (by have := hq.four_le; omega)).1

/-- Length of the log table: `q`. -/
theorem gf_log_length {q : Nat} (hq : GoodQ q) : (gf_log q).length = q := by
  rw [gf_log_eq_loop1]
  exact (loop1_invariant hq (q - 2) (le_refl _)).2.2.1

/-- Every entry of the exponent table is the corresponding power of the
generator: `gf_exp[i] = α^(i mod n)` for `i < 2*q`. -/
theorem gf_exp_getD {q : Nat} (hq : GoodQ q) {i : Nat} (hi : i < q * 2) :
    (gf_exp q).getD i 0 = xpow q (i % (q - 1)) := by
  have hq4 := hq.four_le
  rw [gf_exp_eq_loop2]
  have h := (loop2_invariant hq (q * 2 - (q - 1)) (by omega)).2 i hi
  rw [h, if_pos (by omega)]

theorem gf_log_getD_xpow {q : Nat} (hq : GoodQ q) {t : Nat} (ht : t ≤ q - 2) :
    (gf_log q).getD (xpow q t) 0 = t := by
  have hq4 := hq.four_le
  obtain ⟨_, _, _, _, hl1, hl2⟩ := loop1_invariant hq (q - 2) (le_refl _)
  rw [gf_log_eq_loop1]
  by_cases ht0 : t = 0
  · subst ht0
    show (loop1_state q (q - 2)).2.1.getD 1 0 = 0
    apply hl2
    intro s hs1 hs2 hs
    exact injCheck_sound q hq.inj s hs1 hs2 hs
  · exact hl1 t (by omega) ht

theorem gf_log_getD_lt {q : Nat} (hq : GoodQ q) (v : Nat) :
    (gf_log q).getD v 0 < q - 1 := by
  have hq4 := hq.four_le
  classical
  by_cases h : ∃ t, 1 ≤ t ∧ t ≤ q - 2 ∧ xpow q t = v
  · obtain ⟨t, ht1, ht2, rfl⟩ := h
    rw [gf_log_getD_xpow hq ht2]
    omega
  · push_neg at h
    obtain ⟨_, _, _, _, _, hl2⟩ := loop1_invariant hq (q - 2) (le_refl _)
    rw [gf_log_eq_loop1, hl2 v (fun t h1 h2 => h t h1 h2)]
    omega

/-- Table inversion `gf_exp[gf_log[v]] = v` for every nonzero field element `v`. -/
theorem gf_exp_log {q : Nat} (hq : GoodQ q) {v : Nat} (hv1 : 1 ≤ v) (hv2 : v < q) :
    (gf_exp q).getD ((gf_log q).getD v 0) 0 = v := by
  have hq4 := hq.four_le
  obtain ⟨t, ht, rfl⟩ := xpow_surj hq hv1 hv2
  rw [gf_log_getD_xpow hq (by omega), gf_exp_getD hq (by omega),
    Nat.mod_eq_of_lt (by omega)]

theorem getD_of_length_le {l : List Nat} {i : Nat} {d : Nat} (h : l.length ≤ i) :
    l.getD i d = d := by
  rw [List.getD_eq_getElem?_getD, List.getElem?_eq_none h]
  rfl

theorem getElem?_eq_some_getD {l : List Nat} {i : Nat} (h : i < l.length) :
    l[i]? = some (l.getD i 0) := by
  rw [List.getElem?_eq_getElem h, List.getD_eq_getElem?_getD, List.getElem?_eq_getElem h]
  rfl

/-- The `gf_mul` field multiplication of the source: `0` if either operand is `0`, else
`gf_exp[gf_log[x] + gf_log[y]]`. -/
def gf_mul (q x y : Nat) : Nat :=
  if x = 0 ∨ y = 0 then 0
  else (gf_exp q).getD ((gf_log q).getD x 0 + (gf_log q).getD y 0) 0

/-- A variant of `gf_mul` with every table subscript modelled by the partial `List.getElem?`
exactly where the source indexes `gf_log` and `gf_exp`; used to state that
`gf_mul` never raises an `IndexError`. -/
def gf_mul_checked (q x y : Nat) : Option Nat :=
  if x = 0 ∨ y = 0 then some 0
  else do
    let lx ← (gf_log q)[x]?
    let ly ← (gf_log q)[y]?
    (gf_exp q)[lx + ly]?

/-- The `gf_div` field division of the source in the nonzero-divisor case:
`0` if `x = 0`, else `gf_exp[gf_log[x] + n - gf_log[y]]`.  (For `y = 0` the
source raises `ZeroDivisionError`; `gf_div_checked` models that branch.) -/
def gf_div (q x y : Nat) : Nat :=
  if x = 0 then 0
  else (gf_exp q).getD ((gf_log q).getD x 0 + (q - 1) - (gf_log q).getD y 0) 0

theorem gf_exp_getD_lt {q : Nat} (hq : GoodQ q) (i : Nat) :
    (gf_exp q).getD i 0 < q := by
  have hq4 := hq.four_le
  by_cases h : i < q * 2
  · rw [gf_exp_getD hq h]
    exact xpow_lt hq _
  · rw [getD_of_length_le (by rw [gf_exp_length hq]; omega)]
    omega

theorem gf_mul_lt {q : Nat} (hq : GoodQ q) (x y : Nat) : gf_mul q x y < q := by
  have hq4 := hq.four_le
  unfold gf_mul
  by_cases h : x = 0 ∨ y = 0
  · rw [if_pos h]
    omega
  · rw [if_neg h]
    exact gf_exp_getD_lt hq _

theorem xpow_log {q : Nat} (hq : GoodQ q) {x : Nat} (hx1 : 1 ≤ x) (hx2 : x < q) :
    xpow q ((gf_log q).getD x 0) = x := by
  have h := gf_exp_log hq hx1 hx2
  have hlt := gf_log_getD_lt hq x
  have hq4 := hq.four_le
  rw [gf_exp_getD hq (by omega), Nat.mod_eq_of_lt (by omega)] at h
  exact h

/-- For nonzero operands `gf_mul` computes `α^((log x + log y) mod n)`. -/
theorem gf_mul_eq_xpow {q : Nat} (hq : GoodQ q) {x y : Nat} (hx1 : 1 ≤ x) (_hx2 : x < q)
    (hy1 : 1 ≤ y) (_hy2 : y < q) :
    gf_mul q x y =
      xpow q (((gf_log q).getD x 0 + (gf_log q).getD y 0) % (q - 1)) := by
  have hq4 := hq.four_le
  have hlx := gf_log_getD_lt hq x
  have hly := gf_log_getD_lt hq y
  unfold gf_mul
  rw [if_neg (by omega)]
  exact gf_exp_getD hq (by omega)

theorem gf_mul_ne_zero {q : Nat} (hq : GoodQ q) {x y : Nat} (hx1 : 1 ≤ x) (hx2 : x < q)
    (hy1 : 1 ≤ y) (hy2 : y < q) : gf_mul q x y ≠ 0 := by
  rw [gf_mul_eq_xpow hq hx1 hx2 hy1 hy2]
  exact xpow_ne_zero hq _

theorem gf_mul_one {q : Nat} (hq : GoodQ q) {x : Nat} (hx : x < q) :
    gf_mul q x 1 = x := by
  have hq4 := hq.four_le
  by_cases hx0 : x = 0
  · subst hx0
    simp [gf_mul]
  · have hlog1 : (gf_log q).getD 1 0 = 0 := gf_log_getD_xpow hq (t := 0) (by omega)
    have hlx := gf_log_getD_lt hq x
    rw [gf_mul_eq_xpow hq (by omega) hx (by omega) (by omega), hlog1,
      Nat.add_zero, Nat.mod_eq_of_lt (by omega)]
    exact xpow_log hq (by omega) hx

theorem gf_one_mul {q : Nat} (hq : GoodQ q) {x : Nat} (hx : x < q) :
    gf_mul q 1 x = x := by
  have hq4 := hq.four_le
  by_cases hx0 : x = 0
  · subst hx0
    simp [gf_mul]
  · have hlog1 : (gf_log q).getD 1 0 = 0 := gf_log_getD_xpow hq (t := 0) (by omega)
    have hlx := gf_log_getD_lt hq x
    rw [gf_mul_eq_xpow hq (by omega) (by omega) (by omega) hx, hlog1,
      Nat.zero_add, Nat.mod_eq_of_lt (by omega)]
    exact xpow_log hq (by omega) hx

/-- Field division inverts field multiplication:
`gf_div (gf_mul x y) y = x` for `y ≠ 0`. -/
theorem gf_div_gf_mul {q : Nat} (hq : GoodQ q) {x y : Nat} (hx : x < q)
    (hy1 : 1 ≤ y) (hy2 : y < q) : gf_div q (gf_mul q x y) y = x := by
  have hq4 := hq.four_le
  by_cases hx0 : x = 0
  · subst hx0
    have hm : gf_mul q 0 y = 0 := by simp [gf_mul]
    rw [hm]
    simp [gf_div]
  · have hx1 : 1 ≤ x := by omega
    have hlx := gf_log_getD_lt hq x
    have hly := gf_log_getD_lt hq y
    have hmul := gf_mul_eq_xpow hq hx1 hx hy1 hy2
    have hmne : gf_mul q x y ≠ 0 := gf_mul_ne_zero hq hx1 hx hy1 hy2
    have hmlt : ((gf_log q).getD x 0 + (gf_log q).getD y 0) % (q - 1) < q - 1 :=
      Nat.mod_lt _ (by omega)
    have hlogm : (gf_log q).getD (gf_mul q x y) 0 =
        ((gf_log q).getD x 0 + (gf_log q).getD y 0) % (q - 1) := by
      rw [hmul]
      exact gf_log_getD_xpow hq (by omega)
    unfold gf_div
    rw [if_neg hmne, hlogm]
    have hidx : ((gf_log q).getD x 0 + (gf_log q).getD y 0) % (q - 1) + (q - 1) -
        (gf_log q).getD y 0 =
        ((gf_log q).getD x 0 + (gf_log q).getD y 0) % (q - 1) +
          ((q - 1) - (gf_log q).getD y 0) := by omega
    rw [hidx, gf_exp_getD hq (by omega), Nat.mod_add_mod]
    have harith : (gf_log q).getD x 0 + (gf_log q).getD y 0 +
        ((q - 1) - (gf_log q).getD y 0) = (gf_log q).getD x 0 + (q - 1) := by omega
    rw [harith, Nat.add_mod_right, Nat.mod_eq_of_lt (by omega)]
    exact xpow_log hq hx1 hx

/-- Field multiplication indexes its tables in bounds for all arguments in `[0, q)`. -/
theorem gf_mul_checked_eq {q : Nat} (hq : GoodQ q) {x y : Nat} (hx : x < q) (hy : y < q) :
    gf_mul_checked q x y = some (gf_mul q x y) := by
  have hq4 := hq.four_le
  unfold gf_mul_checked gf_mul
  by_cases h : x = 0 ∨ y = 0
  · rw [if_pos h, if_pos h]
  · rw [if_neg h, if_neg h]
    have hlx := gf_log_getD_lt hq x
    have hly := gf_log_getD_lt hq y
    have h1 : (gf_log q)[x]? = some ((gf_log q).getD x 0) :=
      getElem?_eq_some_getD (by rw [gf_log_length hq]; omega)
    have h2 : (gf_log q)[y]? = some ((gf_log q).getD y 0) :=
      getElem?_eq_some_getD (by rw [gf_log_length hq]; omega)
    have h3 : (gf_exp q)[(gf_log q).getD x 0 + (gf_log q).getD y 0]? =
        some ((gf_exp q).getD ((gf_log q).getD x 0 + (gf_log q).getD y 0) 0) :=
      getElem?_eq_some_getD (by rw [gf_exp_length hq]; omega)
    rw [h1, h2]
    simp only [Option.bind_eq_bind, Option.some_bind]
    exact h3

theorem goodQ_4 : GoodQ 4 :=
  ⟨by norm_num, ⟨2, by norm_num⟩, by decide, by decide, by decide, by rfl⟩

theorem goodQ_8 : GoodQ 8 :=
  ⟨by norm_num, ⟨3, by norm_num⟩, by decide, by decide, by decide, by rfl⟩

theorem goodQ_16 : GoodQ 16 :=
  ⟨by norm_num, ⟨4, by norm_num⟩, by decide, by decide, by decide, by rfl⟩

theorem goodQ_32 : GoodQ 32 :=
  ⟨by norm_num, ⟨5, by norm_num⟩, by decide, by decide, by decide, by rfl⟩

theorem goodQ_64 : GoodQ 64 :=
  ⟨by norm_num, ⟨6, by norm_num⟩, by decide, by decide, by decide, by rfl⟩

theorem goodQ_128 : GoodQ 128 :=
  ⟨by norm_num, ⟨7, by norm_num⟩, by decide, by decide, by decide, by rfl⟩

theorem goodQ_256 : GoodQ 256 :=
  ⟨by norm_num, ⟨8, by norm_num⟩, by decide, by decide, by decide, by rfl⟩

theorem goodQ_512 : GoodQ 512 :=
  ⟨by norm_num, ⟨9, by norm_num⟩, by decide, by decide, by decide, by rfl⟩

theorem goodQ_1024 : GoodQ 1024 :=
  ⟨by norm_num, ⟨10, by norm_num⟩, by decide, by decide, by decide, by rfl⟩

theorem goodQ_2048 : GoodQ 2048 :=
  ⟨by norm_num, ⟨11, by norm_num⟩, by decide, by decide, by decide, by rfl⟩

theorem goodQ_4096 : GoodQ 4096 :=
  ⟨by norm_num, ⟨12, by norm_num⟩, by decide, by decide, by decide, by rfl⟩

theorem goodQ_8192 : GoodQ 8192 :=
  ⟨by norm_num, ⟨13, by norm_num⟩, by decide, by decide, by decide, by rfl⟩

theorem goodQ_16384 : GoodQ 16384 :=
  ⟨by norm_num, ⟨14, by norm_num⟩, by decide, by decide, by decide, by rfl⟩

theorem goodQ_32768 : GoodQ 32768 :=
  ⟨by norm_num, ⟨15, by norm_num⟩, by decide, by decide, by decide, by rfl⟩

theorem goodQ_65536 : GoodQ 65536 :=
  ⟨by norm_num, ⟨16, by norm_num⟩, by decide, by decide, by decide, by rfl⟩

theorem goodQ_of_supported {q : Nat} (h : q ∈ supported_sizes) : GoodQ q := by
  fin_cases h
  exacts [goodQ_4, goodQ_8, goodQ_16, goodQ_32, goodQ_64, goodQ_128, goodQ_256,
    goodQ_512, goodQ_1024, goodQ_2048, goodQ_4096, goodQ_8192, goodQ_16384,
    goodQ_32768, goodQ_65536]

/-- The failure outcomes of the codec, one constructor per distinct Python
exception site: `ValueError("message too long")`, the `ValueError` raised by
writing a non-byte value into a `bytearray`, the three `ReedSolomonError`
messages, the `ValueError` raised by `max([])`, and `ZeroDivisionError`. -/
inductive RSError
  | InputTooLong
  | ByteOutOfRange
  | TooManyErasures
  | TooManyErrors
  | CouldNotLocate
  | CouldNotCorrect
  | MaxEmpty
  | ZeroDivision
  deriving DecidableEq

/-- The `gf_poly_scale` helper: multiply every coefficient of `p` by `x`. -/
def gf_poly_scale (q : Nat) (p : List Nat) (x : Nat) : List Nat :=
  p.map (fun c => gf_mul q c x)

/-- The `gf_poly_add` helper: coefficient-wise XOR with the two operands aligned at
their low-order (rightmost) ends, as the source's index arithmetic
`r[i + len(r) - len(p)]` does. -/
def gf_poly_add (p t : List Nat) : List Nat :=
  List.zipWith Nat.xor
    (List.replicate (max p.length t.length - p.length) 0 ++ p)
    (List.replicate (max p.length t.length - t.length) 0 ++ t)

/-- The `gf_poly_mul` helper: the double loop `r[i + j] ^= gf_mul(p[i], t[j])` over a
zero buffer of length `len(p) + len(t) - 1`. -/
def gf_poly_mul (q : Nat) (p t : List Nat) : List Nat :=
  (List.range t.length).foldl (fun r j =>
    (List.range p.length).foldl (fun r i =>
      r.set (i + j) (r.getD (i + j) 0 ^^^ gf_mul q (p.getD i 0) (t.getD j 0))) r)
    (List.replicate (p.length + t.length - 1) 0)

/-- The `gf_poly_eval` helper: Horner evaluation `y = gf_mul(y, x) ^ p[i]` starting from
`p[0]`.  (On an empty list the source would raise `IndexError` reading
`p[0]`; the `[]` case is a placeholder that no modelled execution reaches,
because the decoder only evaluates nonempty polynomials.) -/
def gf_poly_eval (q : Nat) (p : List Nat) (x : Nat) : Nat :=
  match p with
  | [] => 0
  | c :: rest => rest.foldl (fun y d => gf_mul q y x ^^^ d) c

/-- The `rs_generator_poly` builder: `g = Π_{i=1..nsym} (x + α^i)`, built by folding
`gf_poly_mul g [1, gf_exp[i]]` over `i in range(1, nsym + 1)`. -/
def rs_generator_poly (q : Nat) (nsym : Nat) : List Nat :=
  (List.range' 1 nsym).foldl (fun g i => gf_poly_mul q g [1, (gf_exp q).getD i 0]) [1]

/-- A write `buf[i] ^= v` into a Python `bytearray` stores `buf[i] ^ v`,
raising `ValueError` if the stored value is not a byte. -/
def byteWrite (buf : List Nat) (i : Nat) (v : Nat) : Except RSError (List Nat) :=
  if v < 256 then .ok (buf.set i v) else .error .ByteOutOfRange

/-- The `rs_encode_msg` encoder of the source.  `msg_out = bytearray(len(msg_in) + nsym)`
followed by `msg_out[:len(msg_in)] = msg_in` is `msg_in ++ replicate nsym 0`
guarded by the bytearray byte check on each assigned value; the final
`msg_out[:len(msg_in)] = msg_in` re-writes the same (already checked) values,
so the result is `msg_in ++ (parity part of the buffer)`. -/
def rs_encode_msg (q : Nat) (msg_in : List Nat) (nsym : Nat) : Except RSError (List Nat) :=
  if msg_in.length + nsym > q - 1 then .error .InputTooLong
  else
    let gen := rs_generator_poly q nsym
    if msg_in.all (· < 256) then
      match (List.range msg_in.length).foldlM (fun buf i =>
          let coef := buf.getD i 0
          if coef ≠ 0 then
            (List.range gen.length).foldlM (fun buf j =>
              byteWrite buf (i + j) (buf.getD (i + j) 0 ^^^ gf_mul q (gen.getD j 0) coef))
              buf
          else pure buf) (msg_in ++ List.replicate nsym 0) with
      | .error e => .error e
      | .ok msg_out => .ok (msg_in ++ msg_out.drop msg_in.length)
    else .error .ByteOutOfRange

theorem foldl_pres {α : Type} {P : List Nat → Prop} {f : List Nat → α → List Nat}
    (idx : List α) (h : ∀ r a, a ∈ idx → P r → P (f r a)) :
    ∀ r, P r → P (idx.foldl f r) := by
  induction idx with
  | nil => exact fun r h0 => h0
  | cons a idx ih =>
      intro r h0
      exact ih (fun r b hb hp => h r b (by simp [hb]) hp) _
        (h r a (by simp) h0)

theorem getD_append {l1 l2 : List Nat} {p : Nat} {d : Nat} :
    (l1 ++ l2).getD p d = if p < l1.length then l1.getD p d else l2.getD (p - l1.length) d := by
  by_cases h : p < l1.length
  · rw [if_pos h, List.getD_eq_getElem?_getD, List.getElem?_append_left h,
      ← List.getD_eq_getElem?_getD]
  · rw [if_neg h, List.getD_eq_getElem?_getD, List.getElem?_append_right (by omega),
      ← List.getD_eq_getElem?_getD]

theorem getD_lt_of_all {l : List Nat} {B : Nat} (hB : 0 < B) (h : ∀ v ∈ l, v < B)
    (k : Nat) : l.getD k 0 < B := by
  by_cases hk : k < l.length
  · rw [List.getD_eq_getElem?_getD, List.getElem?_eq_getElem hk]
    exact h _ (List.getElem_mem hk)
  · rw [getD_of_length_le (by omega)]
    exact hB

theorem list_eq_of_getD {l1 l2 : List Nat} (hlen : l1.length = l2.length)
    (h : ∀ p, p < l1.length → l1.getD p 0 = l2.getD p 0) : l1 = l2 := by
  apply List.ext_getElem hlen
  intro i h1 h2
  have := h i h1
  rw [List.getD_eq_getElem?_getD, List.getElem?_eq_getElem h1,
    List.getD_eq_getElem?_getD, List.getElem?_eq_getElem h2] at this
  exact this

theorem gf_poly_mul_length (q : Nat) (p t : List Nat) :
    (gf_poly_mul q p t).length = p.length + t.length - 1 := by
  unfold gf_poly_mul
  refine foldl_pres (P := fun r => r.length = p.length + t.length - 1) _ ?_ _ (by simp)
  intro r j _ hp
  refine foldl_pres (P := fun r => r.length = p.length + t.length - 1) _ ?_ _ hp
  intro r i _ hp
  rw [List.length_set]
  exact hp

theorem gf_poly_mul_getD_zero (q : Nat) {p t : List Nat} (hp : p ≠ []) (ht : t ≠ []) :
    (gf_poly_mul q p t).getD 0 0 = gf_mul q (p.getD 0 0) (t.getD 0 0) := by
  obtain ⟨p0, ps, rfl⟩ := List.exists_cons_of_ne_nil hp
  obtain ⟨t0, ts, rfl⟩ := List.exists_cons_of_ne_nil ht
  unfold gf_poly_mul
  have hlen : (p0 :: ps).length + (t0 :: ts).length - 1 =
      ps.length + ts.length + 1 := by simp; omega
  rw [hlen]
  set L := ps.length + ts.length + 1 with hL
  set inner := fun (r : List Nat) (j : Nat) =>
    (List.range (p0 :: ps).length).foldl (fun r i =>
      r.set (i + j) (r.getD (i + j) 0 ^^^
        gf_mul q ((p0 :: ps).getD i 0) ((t0 :: ts).getD j 0))) r with hinner
  have hP : ∀ (r : List Nat) (j : Nat), 1 ≤ j →
      r.getD 0 0 = gf_mul q p0 t0 ∧ r.length = L →
      (inner r j).getD 0 0 = gf_mul q p0 t0 ∧ (inner r j).length = L := by
    intro r j hj hr
    rw [hinner]
    refine foldl_pres
      (P := fun r => r.getD 0 0 = gf_mul q p0 t0 ∧ r.length = L) _ ?_ _ hr
    intro r i _ ⟨h1, h2⟩
    constructor
    · rw [getD_set_ne (by omega)]
      exact h1
    · rw [List.length_set]
      exact h2
  have hfirst : (inner (List.replicate L 0) 0).getD 0 0 = gf_mul q p0 t0 ∧
      (inner (List.replicate L 0) 0).length = L := by
    simp only [hinner, List.length_cons]
    rw [List.range_succ_eq_map, List.foldl_cons]
    have hset : (List.replicate L 0).set (0 + 0)
        ((List.replicate L 0).getD (0 + 0) 0 ^^^
          gf_mul q ((p0 :: ps).getD 0 0) ((t0 :: ts).getD 0 0)) =
        (List.replicate L 0).set 0 (gf_mul q p0 t0) := by
      have h0 : (List.replicate L 0).getD 0 0 = 0 := by
        rw [getD_replicate, if_pos (by omega)]
      show (List.replicate L 0).set 0 _ = _
      rw [h0, Nat.zero_xor]
      rfl
    rw [hset]
    refine foldl_pres
      (P := fun r => r.getD 0 0 = gf_mul q p0 t0 ∧ r.length = L) _ ?_ _ ?_
    · intro r i hi ⟨h1, h2⟩
      obtain ⟨k, _, rfl⟩ := List.mem_map.1 hi
      constructor
      · rw [getD_set_ne (by omega)]
        exact h1
      · rw [List.length_set]
        exact h2
    · constructor
      · rw [getD_set_self (by rw [List.length_replicate]; omega)]
      · rw [List.length_set, List.length_replicate]
  show ((List.range (ts.length + 1)).foldl inner (List.replicate L 0)).getD 0 0 =
    gf_mul q p0 t0
  rw [List.range_succ_eq_map, List.foldl_cons]
  exact (foldl_pres (P := fun r => r.getD 0 0 = gf_mul q p0 t0 ∧ r.length = L) _
    (by
      intro r j hj hp
      obtain ⟨k, _, rfl⟩ := List.mem_map.1 hj
      exact hP r (k + 1) (by omega) hp) _ hfirst).1

theorem rs_generator_poly_length (q : Nat) (nsym : Nat) :
    (rs_generator_poly q nsym).length = nsym + 1 := by
  induction nsym with
  | zero => rfl
  | succ k ih =>
      unfold rs_generator_poly at ih ⊢
      rw [List.range'_concat, List.foldl_append, List.foldl_cons, List.foldl_nil,
        gf_poly_mul_length, ih]
      simp

theorem rs_generator_poly_getD_zero {q : Nat} (hq : GoodQ q) (nsym : Nat) :
    (rs_generator_poly q nsym).getD 0 0 = 1 := by
  have hq4 := hq.four_le
  induction nsym with
  | zero => rfl
  | succ k ih =>
      unfold rs_generator_poly at ih ⊢
      rw [List.range'_concat, List.foldl_append, List.foldl_cons, List.foldl_nil]
      have hne : (List.range' 1 k).foldl
          (fun g i => gf_poly_mul q g [1, (gf_exp q).getD i 0]) [1] ≠ [] := by
        have := rs_generator_poly_length q k
        unfold rs_generator_poly at this
        intro h
        rw [h] at this
        simp at this
      rw [gf_poly_mul_getD_zero q hne (by simp), ih]
      show gf_mul q 1 1 = 1
      exact gf_mul_one hq (by omega)

/-- Reference definition for the parity of C3, following the spec's account
of systematic encoding as polynomial long division: one elimination step
drops the leading coefficient `c` and, when `c ≠ 0`, XORs the `c`-scaled
tail of the (monic) generator into the next coefficients. -/
def polyDivStep (q : Nat) (gen : List Nat) : List Nat → List Nat
  | [] => []
  | c :: rest =>
      if c = 0 then rest
      else
        List.zipWith Nat.xor (rest.take (gen.length - 1))
            (gf_poly_scale q (gen.drop 1) c) ++ rest.drop (gen.length - 1)

/-- Iterated (`steps` many) elimination steps of polynomial long division by `gen`; with
`steps = len(message)` applied to `message ++ nsym zeros` this leaves the
division remainder (the parity symbols). -/
def polyRem (q : Nat) (gen : List Nat) : Nat → List Nat → List Nat
  | 0, a => a
  | s + 1, a => polyRem q gen s (polyDivStep q gen a)

theorem polyDivStep_length (q : Nat) (gen : List Nat) (a : List Nat)
    (ha : gen.length - 1 ≤ a.length - 1) :
    (polyDivStep q gen a).length = a.length - 1 := by
  match a with
  | [] => rfl
  | c :: rest =>
      show (if c = 0 then rest
        else List.zipWith Nat.xor (rest.take (gen.length - 1))
            (gf_poly_scale q (gen.drop 1) c) ++ rest.drop (gen.length - 1)).length =
        (c :: rest).length - 1
      by_cases hc : c = 0
      · rw [if_pos hc]
        simp
      · rw [if_neg hc]
        rw [List.length_append, List.length_zipWith, List.length_take,
          List.length_drop]
        unfold gf_poly_scale
        rw [List.length_map, List.length_drop]
        simp at ha ⊢
        omega

theorem polyRem_length (q : Nat) (gen : List Nat) :
    ∀ s a, s + (gen.length - 1) ≤ a.length →
      (polyRem q gen s a).length = a.length - s := by
  intro s
  induction s with
  | zero => intro a _; rfl
  | succ s ih =>
      intro a ha
      show (polyRem q gen s (polyDivStep q gen a)).length = _
      have hstep := polyDivStep_length q gen a (by omega)
      rw [ih _ (by omega), hstep]
      omega

theorem polyRem_succ_outer (q : Nat) (gen : List Nat) (s : Nat) (a : List Nat) :
    polyRem q gen (s + 1) a = polyDivStep q gen (polyRem q gen s a) := by
  induction s generalizing a with
  | zero => rfl
  | succ s ih =>
      show polyRem q gen (s + 1) (polyDivStep q gen a) = _
      rw [ih]
      rfl

theorem getD_take_of_lt {l : List Nat} {n m : Nat} (h : m < n) {d : Nat} :
    (l.take n).getD m d = l.getD m d := by
  rw [List.getD_eq_getElem?_getD, List.getElem?_take_of_lt h, ← List.getD_eq_getElem?_getD]

theorem getD_drop {l : List Nat} {n : Nat} (m d : Nat) :
    (l.drop n).getD m d = l.getD (n + m) d := by
  induction n generalizing l with
  | zero => rw [List.drop_zero, Nat.zero_add]
  | succ n ih =>
      match l with
      | [] => rfl
      | a :: l' =>
          show (l'.drop n).getD m d = _
          rw [ih]
          have e : n + 1 + m = (n + m) + 1 := by omega
          rw [e]
          rfl

theorem getD_zipWith_xor {l1 l2 : List Nat} {k : Nat} (h1 : k < l1.length)
    (h2 : k < l2.length) :
    (List.zipWith Nat.xor l1 l2).getD k 0 = l1.getD k 0 ^^^ l2.getD k 0 := by
  rw [List.getD_eq_getElem?_getD, List.getElem?_zipWith,
    getElem?_eq_some_getD h1, getElem?_eq_some_getD h2]
  rfl

theorem getD_map_mul {q x : Nat} {l : List Nat} {k : Nat} (h : k < l.length) :
    (l.map (fun c => gf_mul q c x)).getD k 0 = gf_mul q (l.getD k 0) x := by
  rw [List.getD_eq_getElem?_getD, List.getElem?_map, getElem?_eq_some_getD h]
  rfl

theorem xor_lt_256 {a b : Nat} (ha : a < 256) (hb : b < 256) : a ^^^ b < 256 := by
  have h : (256 : Nat) = 2 ^ 8 := by norm_num
  rw [h] at ha hb ⊢
  exact Nat.xor_lt_two_pow ha hb

theorem xor_lt_q {q : Nat} (hq : GoodQ q) {a b : Nat} (ha : a < q) (hb : b < q) :
    a ^^^ b < q := by
  obtain ⟨m, rfl⟩ := hq.pow2
  exact Nat.xor_lt_two_pow ha hb

theorem all_lt_iff_getD {l : List Nat} {B : Nat} (hB : 0 < B) :
    (∀ v ∈ l, v < B) ↔ ∀ k, k < l.length → l.getD k 0 < B := by
  constructor
  · intro h k hk
    exact getD_lt_of_all hB h k
  · intro h v hv
    obtain ⟨n, hn, rfl⟩ := List.mem_iff_getElem.1 hv
    have := h n hn
    rw [List.getD_eq_getElem?_getD, List.getElem?_eq_getElem hn] at this
    exact this

/-- The inner XOR loop of `rs_encode_msg` in pure form, generalised over the
number `L` of loop iterations. -/
def encode_innerL (q : Nat) (gen : List Nat) (i coef L : Nat) (buf : List Nat) :
    List Nat :=
  (List.range L).foldl (fun buf j =>
    buf.set (i + j) (buf.getD (i + j) 0 ^^^ gf_mul q (gen.getD j 0) coef)) buf

theorem encode_innerL_char (q : Nat) (gen : List Nat) (i coef : Nat) :
    ∀ (L : Nat) (buf : List Nat), i + L ≤ buf.length →
      (encode_innerL q gen i coef L buf).length = buf.length ∧
      ∀ p, (encode_innerL q gen i coef L buf).getD p 0 =
        if i ≤ p ∧ p < i + L then buf.getD p 0 ^^^ gf_mul q (gen.getD (p - i) 0) coef
        else buf.getD p 0 := by
  intro L
  induction L with
  | zero =>
      intro buf _
      refine ⟨rfl, fun p => ?_⟩
      rw [if_neg (by omega)]
      rfl
  | succ L ih =>
      intro buf hlen
      obtain ⟨ihlen, ihchar⟩ := ih buf (by omega)
      unfold encode_innerL at ihlen ihchar ⊢
      rw [List.range_succ, List.foldl_append, List.foldl_cons, List.foldl_nil]
      have hprev : ((List.range L).foldl (fun buf j =>
          buf.set (i + j) (buf.getD (i + j) 0 ^^^ gf_mul q (gen.getD j 0) coef))
            buf).getD (i + L) 0 = buf.getD (i + L) 0 := by
        rw [ihchar (i + L), if_neg (by omega)]
      constructor
      · rw [List.length_set, ihlen]
      · intro p
        by_cases hp : p = i + L
        · subst hp
          rw [hprev, getD_set_self (by rw [ihlen]; omega), if_pos (by omega)]
          have : i + L - i = L := by omega
          rw [this]
        · rw [getD_set_ne (by omega), ihchar p]
          by_cases hc : i ≤ p ∧ p < i + L
          · rw [if_pos hc, if_pos (by omega)]
          · rw [if_neg hc, if_neg (by omega)]

theorem encode_innerM_eq {q : Nat} (gen : List Nat) (i coef : Nat)
    (hmul : ∀ j, gf_mul q (gen.getD j 0) coef < 256) :
    ∀ (L : Nat) (buf : List Nat), (∀ v ∈ buf, v < 256) →
      ((List.range L).foldlM (fun buf j =>
          byteWrite buf (i + j) (buf.getD (i + j) 0 ^^^ gf_mul q (gen.getD j 0) coef)) buf
        : Except RSError (List Nat)) = .ok (encode_innerL q gen i coef L buf) ∧
      (∀ v ∈ encode_innerL q gen i coef L buf, v < 256) := by
  intro L
  induction L with
  | zero =>
      intro buf hbuf
      exact ⟨rfl, hbuf⟩
  | succ L ih =>
      intro buf hbuf
      obtain ⟨ihok, ihall⟩ := ih buf hbuf
      unfold encode_innerL at ihok ihall ⊢
      rw [List.range_succ, List.foldlM_append, List.foldl_append, List.foldl_cons,
        List.foldl_nil, ihok]
      have hval : ((List.range L).foldl (fun buf j =>
          buf.set (i + j) (buf.getD (i + j) 0 ^^^ gf_mul q (gen.getD j 0) coef))
            buf).getD (i + L) 0 ^^^ gf_mul q (gen.getD L 0) coef < 256 :=
        xor_lt_256 (getD_lt_of_all (by norm_num) ihall _) (hmul L)
      constructor
      · show (do
            let b ← byteWrite _ (i + L) _
            List.foldlM _ b []) = _
        rw [show byteWrite ((List.range L).foldl (fun buf j =>
            buf.set (i + j) (buf.getD (i + j) 0 ^^^ gf_mul q (gen.getD j 0) coef)) buf)
            (i + L) (((List.range L).foldl (fun buf j =>
            buf.set (i + j) (buf.getD (i + j) 0 ^^^ gf_mul q (gen.getD j 0) coef))
              buf).getD (i + L) 0 ^^^ gf_mul q (gen.getD L 0) coef) =
            .ok (((List.range L).foldl (fun buf j =>
            buf.set (i + j) (buf.getD (i + j) 0 ^^^ gf_mul q (gen.getD j 0) coef))
              buf).set (i + L) (((List.range L).foldl (fun buf j =>
            buf.set (i + j) (buf.getD (i + j) 0 ^^^ gf_mul q (gen.getD j 0) coef))
              buf).getD (i + L) 0 ^^^ gf_mul q (gen.getD L 0) coef))
          from by unfold byteWrite; rw [if_pos hval]]
        rfl
      · intro v hv
        rcases List.mem_or_eq_of_mem_set hv with h | h
        · exact ihall v h
        · rw [h]
          exact hval

theorem encode_step_eq {q : Nat} (hq : GoodQ q) {gen : List Nat}
    (hgen0 : gen.getD 0 0 = 1) (hgenlen : 1 ≤ gen.length)
    {i c : Nat} (_hc1 : c ≠ 0) (hcq : c < q) {rest : List Nat}
    (hrest : gen.length - 1 ≤ rest.length) :
    encode_innerL q gen i c gen.length (List.replicate i 0 ++ c :: rest) =
      List.replicate (i + 1) 0 ++
        (List.zipWith Nat.xor (rest.take (gen.length - 1))
          (gf_poly_scale q (gen.drop 1) c) ++ rest.drop (gen.length - 1)) := by
  have hq4 := hq.four_le
  have hbuflen : (List.replicate i 0 ++ c :: rest).length = i + 1 + rest.length := by
    simp
    omega
  have hinlen : i + gen.length ≤ (List.replicate i 0 ++ c :: rest).length := by
    rw [hbuflen]
    omega
  obtain ⟨hlen, hchar⟩ := encode_innerL_char q gen i c gen.length _ hinlen
  have hscalelen : (gf_poly_scale q (gen.drop 1) c).length = gen.length - 1 := by
    unfold gf_poly_scale
    rw [List.length_map, List.length_drop]
  have hziplen : (List.zipWith Nat.xor (rest.take (gen.length - 1))
      (gf_poly_scale q (gen.drop 1) c)).length = gen.length - 1 := by
    rw [List.length_zipWith, List.length_take, hscalelen]
    omega
  apply list_eq_of_getD
  · rw [hlen, hbuflen, List.length_append, List.length_append, hziplen,
      List.length_replicate, List.length_drop]
    omega
  · intro p hp
    rw [hlen, hbuflen] at hp
    rw [hchar p]
    have hbufp : ∀ p', (List.replicate i 0 ++ c :: rest).getD p' 0 =
        if p' < i then 0 else (c :: rest).getD (p' - i) 0 := by
      intro p'
      rw [getD_append, List.length_replicate]
      by_cases h : p' < i
      · rw [if_pos h, if_pos h, getD_replicate, if_pos h]
      · rw [if_neg h, if_neg h]
    have hrhs : (List.replicate (i + 1) 0 ++
        (List.zipWith Nat.xor (rest.take (gen.length - 1))
          (gf_poly_scale q (gen.drop 1) c) ++ rest.drop (gen.length - 1))).getD p 0 =
        if p < i + 1 then 0
        else if p - (i + 1) < gen.length - 1 then
          rest.getD (p - i - 1) 0 ^^^ gf_mul q (gen.getD (p - i) 0) c
        else rest.getD (p - i - 1) 0 := by
      rw [getD_append, List.length_replicate]
      by_cases h : p < i + 1
      · rw [if_pos h, if_pos h, getD_replicate, if_pos h]
      · rw [if_neg h, if_neg h, getD_append, hziplen]
        by_cases h2 : p - (i + 1) < gen.length - 1
        · rw [if_pos h2, if_pos h2,
            getD_zipWith_xor (by rw [List.length_take]; omega) (by rw [hscalelen]; omega),
            getD_take_of_lt h2]
          unfold gf_poly_scale
          rw [getD_map_mul (by rw [List.length_drop]; omega), getD_drop]
          have e1 : p - (i + 1) = p - i - 1 := by omega
          have e2 : 1 + (p - i - 1) = p - i := by omega
          rw [e1, e2]
        · rw [if_neg h2, if_neg h2, getD_drop]
          have e1 : gen.length - 1 + (p - (i + 1) - (gen.length - 1)) = p - i - 1 := by
            omega
          rw [e1]
    rw [hrhs]
    by_cases hcase1 : p < i
    · rw [if_neg (by omega), hbufp p, if_pos hcase1, if_pos (by omega)]
    · by_cases hcase2 : p = i
      · subst hcase2
        rw [if_pos (by omega), hbufp p, if_neg (by omega), if_pos (by omega)]
        have e0 : p - p = 0 := by omega
        rw [e0, hgen0]
        show (c :: rest).getD 0 0 ^^^ gf_mul q 1 c = 0
        rw [gf_one_mul hq hcq]
        show c ^^^ c = 0
        exact Nat.xor_self c
      · by_cases hcase3 : p < i + gen.length
        · rw [if_pos (by omega), hbufp p, if_neg (by omega), if_neg (by omega),
            if_pos (by omega)]
          have e1 : p - i = (p - i - 1) + 1 := by omega
          congr 1
          rw [e1]
          rfl
        · rw [if_neg (by omega), hbufp p, if_neg (by omega), if_neg (by omega),
            if_neg (by omega)]
          have e1 : p - i = (p - i - 1) + 1 := by omega
          rw [e1]
          rfl

theorem encode_loopM_eq {q : Nat} (hq : GoodQ q) (hq256 : q ≤ 256) {gen : List Nat}
    (hgen0 : gen.getD 0 0 = 1) {nsym : Nat} (hgenlen : gen.length = nsym + 1)
    {msg : List Nat} (hmsg : ∀ v ∈ msg, v < q) :
    ∀ m, m ≤ msg.length →
      ((List.range m).foldlM (fun buf i =>
        let coef := buf.getD i 0
        if coef ≠ 0 then
          (List.range gen.length).foldlM (fun buf j =>
            byteWrite buf (i + j) (buf.getD (i + j) 0 ^^^ gf_mul q (gen.getD j 0) coef))
            buf
        else pure buf) (msg ++ List.replicate nsym 0) : Except RSError (List Nat))
      = .ok (List.replicate m 0 ++ polyRem q gen m (msg ++ List.replicate nsym 0)) ∧
      (∀ v ∈ polyRem q gen m (msg ++ List.replicate nsym 0), v < q) := by
  have hq4 := hq.four_le
  have ha0 : ∀ v ∈ msg ++ List.replicate nsym 0, v < q := by
    intro v hv
    rcases List.mem_append.1 hv with h | h
    · exact hmsg v h
    · rw [List.eq_of_mem_replicate h]
      omega
  have ha0len : (msg ++ List.replicate nsym 0).length = msg.length + nsym := by
    simp
  intro m
  induction m with
  | zero =>
      intro _
      exact ⟨rfl, ha0⟩
  | succ m ih =>
      intro hm
      obtain ⟨ihok, ihall⟩ := ih (by omega)
      have hremlen : (polyRem q gen m (msg ++ List.replicate nsym 0)).length =
          msg.length + nsym - m := by
        rw [polyRem_length q gen m _ (by rw [ha0len, hgenlen]; omega), ha0len]
      obtain ⟨c, rest, hcr⟩ : ∃ c rest,
          polyRem q gen m (msg ++ List.replicate nsym 0) = c :: rest := by
        have hne : polyRem q gen m (msg ++ List.replicate nsym 0) ≠ [] := by
          intro h
          rw [h] at hremlen
          simp at hremlen
          omega
        obtain ⟨c, rest, h⟩ := List.exists_cons_of_ne_nil hne
        exact ⟨c, rest, h⟩
      have hrestlen : rest.length = msg.length + nsym - m - 1 := by
        rw [hcr] at hremlen
        simp at hremlen
        omega
      have hcoef : (List.replicate m 0 ++
          polyRem q gen m (msg ++ List.replicate nsym 0)).getD m 0 = c := by
        rw [getD_append, List.length_replicate, if_neg (by omega), Nat.sub_self, hcr]
        rfl
      have hsucc : polyRem q gen (m + 1) (msg ++ List.replicate nsym 0) =
          polyDivStep q gen (c :: rest) := by
        rw [polyRem_succ_outer, hcr]
      rw [List.range_succ, List.foldlM_append]
      rw [ihok]
      show (do
        let b ← (do
          let coef := (List.replicate m 0 ++
            polyRem q gen m (msg ++ List.replicate nsym 0)).getD m 0
          if coef ≠ 0 then
            (List.range gen.length).foldlM (fun buf j =>
              byteWrite buf (m + j) (buf.getD (m + j) 0 ^^^ gf_mul q (gen.getD j 0) coef))
              (List.replicate m 0 ++ polyRem q gen m (msg ++ List.replicate nsym 0))
          else pure (List.replicate m 0 ++ polyRem q gen m (msg ++ List.replicate nsym 0)))
        (List.foldlM _ b [] : Except RSError (List Nat))) = _ ∧ _
      rw [hcoef]
      by_cases hc : c = 0
      · subst hc
        rw [if_neg (by omega)]
        have hbuf : List.replicate m 0 ++
            polyRem q gen m (msg ++ List.replicate nsym 0) =
            List.replicate (m + 1) 0 ++ rest := by
          rw [hcr, List.replicate_succ', List.append_assoc]
          rfl
        have hrem : polyRem q gen (m + 1) (msg ++ List.replicate nsym 0) = rest := by
          rw [hsucc]
          show (if (0 : Nat) = 0 then rest
            else List.zipWith Nat.xor (rest.take (gen.length - 1))
              (gf_poly_scale q (gen.drop 1) 0) ++ rest.drop (gen.length - 1)) = rest
          rw [if_pos rfl]
        constructor
        · show Except.ok _ = _
          rw [hbuf, hrem]
        · intro v hv
          rw [hrem] at hv
          exact ihall v (by rw [hcr]; exact List.mem_cons_of_mem _ hv)
      · rw [if_pos hc]
        have hcq : c < q := ihall c (by rw [hcr]; exact List.mem_cons_self c rest)
        have hball : ∀ v ∈ List.replicate m 0 ++
            polyRem q gen m (msg ++ List.replicate nsym 0), v < 256 := by
          intro v hv
          rcases List.mem_append.1 hv with h | h
          · rw [List.eq_of_mem_replicate h]
            omega
          · have := ihall v h
            omega
        have hmul : ∀ j, gf_mul q (gen.getD j 0) c < 256 := by
          intro j
          have := gf_mul_lt hq (gen.getD j 0) c
          omega
        obtain ⟨hmok, _⟩ := encode_innerM_eq gen m c hmul gen.length
          (List.replicate m 0 ++ polyRem q gen m (msg ++ List.replicate nsym 0)) hball
        rw [hmok]
        have hstep : encode_innerL q gen m c gen.length
            (List.replicate m 0 ++ polyRem q gen m (msg ++ List.replicate nsym 0)) =
            List.replicate (m + 1) 0 ++
              (List.zipWith Nat.xor (rest.take (gen.length - 1))
                (gf_poly_scale q (gen.drop 1) c) ++ rest.drop (gen.length - 1)) := by
          rw [hcr]
          exact encode_step_eq hq hgen0 (by omega) hc hcq
            (by rw [hrestlen, hgenlen]; omega)
        have hrem : polyRem q gen (m + 1) (msg ++ List.replicate nsym 0) =
            List.zipWith Nat.xor (rest.take (gen.length - 1))
              (gf_poly_scale q (gen.drop 1) c) ++ rest.drop (gen.length - 1) := by
          rw [hsucc]
          show (if c = 0 then rest else _) = _
          rw [if_neg hc]
        constructor
        · show Except.ok _ = _
          rw [hstep, hrem]
        · intro v hv
          rw [hrem] at hv
          have hrq : ∀ v ∈ rest, v < q := by
            intro v hv
            exact ihall v (by rw [hcr]; exact List.mem_cons_of_mem _ hv)
          have hscl : (gf_poly_scale q (gen.drop 1) c).length = gen.length - 1 := by
            unfold gf_poly_scale
            rw [List.length_map, List.length_drop]
          rcases List.mem_append.1 hv with h | h
          · obtain ⟨k, hk, rfl⟩ := List.mem_iff_getElem.1 h
            have hk' : k < rest.length ∧ k < gen.length - 1 := by
              rw [List.length_zipWith, List.length_take, hscl] at hk
              omega
            have hgd : (List.zipWith Nat.xor (rest.take (gen.length - 1))
                (gf_poly_scale q (gen.drop 1) c))[k] =
                (List.zipWith Nat.xor (rest.take (gen.length - 1))
                  (gf_poly_scale q (gen.drop 1) c)).getD k 0 := by
              rw [List.getD_eq_getElem?_getD, List.getElem?_eq_getElem hk]
              rfl
            rw [hgd, getD_zipWith_xor (by rw [List.length_take]; omega)
              (by rw [hscl]; omega)]
            apply xor_lt_q hq
            · rw [getD_take_of_lt (by omega)]
              exact getD_lt_of_all (by omega) hrq k
            · unfold gf_poly_scale
              rw [getD_map_mul (by rw [List.length_drop]; omega)]
              exact gf_mul_lt hq _ _
          · obtain ⟨k, hk, rfl⟩ := List.mem_iff_getElem.1 h
            have hgd : (rest.drop (gen.length - 1))[k] =
                (rest.drop (gen.length - 1)).getD k 0 := by
              rw [List.getD_eq_getElem?_getD, List.getElem?_eq_getElem hk]
              rfl
            rw [hgd, getD_drop]
            exact getD_lt_of_all (by omega) hrq _

theorem rs_encode_msg_eq {q : Nat} (hq : GoodQ q) (hq256 : q ≤ 256)
    {msg_in : List Nat} {nsym : Nat} (hmsg : ∀ v ∈ msg_in, v < q)
    (hlen : msg_in.length + nsym ≤ q - 1) :
    rs_encode_msg q msg_in nsym =
      .ok (msg_in ++ polyRem q (rs_generator_poly q nsym) msg_in.length
        (msg_in ++ List.replicate nsym 0)) := by
  have hq4 := hq.four_le
  have hall : msg_in.all (fun v => v < 256) = true := by
    rw [List.all_eq_true]
    intro v hv
    have := hmsg v hv
    simp only [decide_eq_true_eq]
    omega
  have hloop := encode_loopM_eq hq hq256 (rs_generator_poly_getD_zero hq nsym)
    (rs_generator_poly_length q nsym) hmsg msg_in.length (le_refl _)
  unfold rs_encode_msg
  rw [if_neg (by omega), if_pos hall, hloop.1]
  show Except.ok (msg_in ++ List.drop msg_in.length
      (List.replicate msg_in.length 0 ++ polyRem q (rs_generator_poly q nsym)
        msg_in.length (msg_in ++ List.replicate nsym 0))) = _
  rw [List.drop_left'
    (by simp : (List.replicate msg_in.length (0 : Nat)).length = msg_in.length)]

/-- Python's `max(l)`: raises `ValueError` on an empty sequence. -/
def pymax (l : List Nat) : Except RSError Nat :=
  match l with
  | [] => .error .MaxEmpty
  | x :: xs => .ok (xs.foldl Nat.max x)

/-- Python's `l[:-nsym]`: for `nsym = 0` this is `l[:0] = []`. -/
def sliceDropLast (l : List Nat) (nsym : Nat) : List Nat :=
  if nsym = 0 then [] else l.take (l.length - nsym)

/-- The `rs_calc_syndromes` syndrome computation: evaluate the received polynomial at `α^i` for
`i in range(nsym)`. -/
def rs_calc_syndromes (q : Nat) (msg : List Nat) (nsym : Nat) : List Nat :=
  (List.range nsym).map (fun i => gf_poly_eval q msg ((gf_exp q).getD i 0))

/-- The `gf_div` field division including the source's `ZeroDivisionError` on a zero divisor. -/
def gf_div_checked (q x y : Nat) : Except RSError Nat :=
  if y = 0 then .error .ZeroDivision else .ok (gf_div q x y)

/-- The slice `q[len(q) & 1 : len(q) : 2]` of `rs_correct_errata`: the
elements at indices congruent to `len(q) mod 2` (for such indices
`i ≥ len(q) & 1` holds automatically), i.e. the formal derivative of the
locator in characteristic 2. -/
def sliceStep2 (p : List Nat) : List Nat :=
  (List.range p.length).filterMap (fun i =>
    if i % 2 = p.length % 2 then p[i]? else none)

/-- The `rs_correct_errata` errata corrector of the source: the locator restricted to the errata
positions, the evaluator polynomial, the formal derivative, then the Forney
correction `msg[pos] ^= gf_div(y, gf_mul(x, z))` applied position by
position (`gf_div` can raise `ZeroDivisionError`, hence `foldlM`). -/
def rs_correct_errata (q : Nat) (msg : List Nat) (synd : List Nat) (pos : List Nat) :
    Except RSError (List Nat) :=
  let qloc := pos.foldl (fun qp p =>
    gf_poly_mul q qp [(gf_exp q).getD (msg.length - 1 - p) 0, 1]) [1]
  let pe := gf_poly_mul q (synd.take pos.length).reverse qloc
  let pe2 := pe.drop (pe.length - pos.length)
  let qd := sliceStep2 qloc
  pos.foldlM (fun m p =>
    let x := (gf_exp q).getD (p + q - m.length) 0
    let y := gf_poly_eval q pe2 x
    let z := gf_poly_eval q qd (gf_mul q x x)
    match gf_div_checked q y (gf_mul q x z) with
    | .error e => .error e
    | .ok c => .ok (m.set p (m.getD p 0 ^^^ c))) msg

/-- The Berlekamp-Massey loop of `rs_find_errors`: state `(err_poly,
old_poly)`, one iteration per syndrome.  `old_poly` is first extended by a
trailing zero; the discrepancy `delta` correlates `err_poly` against the
syndrome window; on a nonzero discrepancy with `len(old_poly) >
len(err_poly)` the rescale-and-swap step runs before the fold-in.
(`gf_div q 1 delta` is only reached under `delta ≠ 0`, so the pure `gf_div`
agrees with the source.) -/
def rs_bm (q : Nat) (synd : List Nat) : List Nat × List Nat :=
  (List.range synd.length).foldl (fun st i =>
    let err_poly := st.1
    let old_poly := st.2 ++ [0]
    let delta := (List.range' 1 (err_poly.length - 1)).foldl
      (fun d j => d ^^^ gf_mul q (err_poly.getD (err_poly.length - 1 - j) 0)
        (synd.getD (i - j) 0)) (synd.getD i 0)
    if delta ≠ 0 then
      if old_poly.length > err_poly.length then
        let new_poly := gf_poly_scale q old_poly delta
        let old2 := gf_poly_scale q err_poly (gf_div q 1 delta)
        (gf_poly_add new_poly (gf_poly_scale q old2 delta), old2)
      else
        (gf_poly_add err_poly (gf_poly_scale q old_poly delta), old_poly)
    else (err_poly, old_poly)) ([1], [1])

/-- The `rs_find_errors` error locator of the source: Berlekamp-Massey, the
`errs * 2 > len(synd)` bound check raising `TooManyErrors`, then the root
search over all `nmess` positions; returns `none` (Python `None`) when the
number of found roots does not match the error count. -/
def rs_find_errors (q : Nat) (synd : List Nat) (nmess : Nat) :
    Except RSError (Option (List Nat)) :=
  let err_poly := (rs_bm q synd).1
  let errs := err_poly.length - 1
  if errs * 2 > synd.length then .error .TooManyErrors
  else
    let err_pos := (List.range nmess).foldl (fun acc i =>
      if gf_poly_eval q err_poly ((gf_exp q).getD (q - 1 - i) 0) = 0 then
        acc ++ [nmess - 1 - i] else acc) []
    if err_pos.length ≠ errs then .ok none
    else .ok (some err_pos)

/-- The `rs_forney_syndromes` transform of the source: for each erasure position,
`fsynd[i] = gf_mul(fsynd[i], x) ^ fsynd[i+1]` across the vector followed by
`fsynd.pop()`. -/
def rs_forney_syndromes (q : Nat) (synd pos : List Nat) (nmess : Nat) : List Nat :=
  pos.foldl (fun fsynd p =>
    let x := (gf_exp q).getD (nmess - 1 - p) 0
    ((List.range (fsynd.length - 1)).foldl (fun fs i =>
      fs.set i (gf_mul q (fs.getD i 0) x ^^^ fs.getD (i + 1) 0)) fsynd).dropLast) synd

/-- The indices recorded by the erasure scan of `rs_correct_msg`
(`msg_out[i] < 0`). -/
def erase_positions (msg_in : List Int) : List Nat :=
  (List.range msg_in.length).filter (fun i => msg_in.getD i 0 < 0)

/-- The received block with every erasure sentinel replaced by `0`, as left
behind by the same scan. -/
def zero_erasures (msg_in : List Int) : List Nat :=
  msg_in.map (fun v => if v < 0 then 0 else v.toNat)

/-- The tail of `rs_correct_msg` after the erasure scan and the
`TooManyErasures` check: syndromes of the zeroed buffer, the all-zero
short-circuit, Forney syndromes, error location, errata correction and the
final re-verification. -/
def rs_decode_core (q : Nat) (erase_pos : List Nat) (msg_out : List Nat) (nsym : Nat) :
    Except RSError (List Nat) :=
  let synd := rs_calc_syndromes q msg_out nsym
  match pymax synd with
  | .error e => .error e
  | .ok mx =>
    if mx = 0 then .ok (sliceDropLast msg_out nsym)
    else
      let fsynd := rs_forney_syndromes q synd erase_pos msg_out.length
      match rs_find_errors q fsynd msg_out.length with
      | .error e => .error e
      | .ok none => .error .CouldNotLocate
      | .ok (some err_pos) =>
        match rs_correct_errata q msg_out synd (erase_pos ++ err_pos) with
        | .error e => .error e
        | .ok corrected =>
          match pymax (rs_calc_syndromes q corrected nsym) with
          | .error e => .error e
          | .ok mx2 =>
            if mx2 > 0 then .error .CouldNotCorrect
            else .ok (sliceDropLast corrected nsym)

/-- The `rs_correct_msg` single-block decoder of the source. -/
def rs_correct_msg (q : Nat) (msg_in : List Int) (nsym : Nat) :
    Except RSError (List Nat) :=
  if msg_in.length > q - 1 then .error .InputTooLong
  else
    let erase_pos := erase_positions msg_in
    let msg_out := zero_erasures msg_in
    if erase_pos.length > nsym then .error .TooManyErasures
    else rs_decode_core q erase_pos msg_out nsym

theorem foldlM_error_mem {α : Type} (f : List Nat → α → Except RSError (List Nat))
    (P : RSError → Prop) (hf : ∀ b a e, f b a = .error e → P e) :
    ∀ (idx : List α) (b : List Nat) (e : RSError),
      idx.foldlM f b = .error e → P e := by
  intro idx
  induction idx with
  | nil =>
      intro b e h
      rw [List.foldlM_nil] at h
      exact absurd h (by intro h; cases h)
  | cons a as ih =>
      intro b e h
      rw [List.foldlM_cons] at h
      cases hfa : f b a with
      | error e' =>
          rw [hfa] at h
          have hred : ((Except.error e' : Except RSError (List Nat)) >>= fun b' =>
              as.foldlM f b') = Except.error e' := rfl
          rw [hred] at h
          injection h with h'
          subst h'
          exact hf b a e' hfa
      | ok b' =>
          rw [hfa] at h
          have hred : ((Except.ok b' : Except RSError (List Nat)) >>= fun b' =>
              as.foldlM f b') = as.foldlM f b' := rfl
          rw [hred] at h
          exact ih b' e h

theorem pymax_error {l : List Nat} {e : RSError} (h : pymax l = .error e) :
    e = .MaxEmpty ∧ l = [] := by
  match l with
  | [] =>
      refine ⟨?_, rfl⟩
      injection h with h'
      exact h'.symm
  | x :: xs => exact absurd h (by intro h; cases h)

theorem pymax_cons (x : Nat) (xs : List Nat) :
    pymax (x :: xs) = .ok (xs.foldl Nat.max x) := rfl

theorem foldl_max_eq_zero_iff :
    ∀ (cs : List Nat) (c : Nat), cs.foldl Nat.max c = 0 ↔ c = 0 ∧ ∀ v ∈ cs, v = 0 := by
  intro cs
  induction cs with
  | nil => simp
  | cons d ds ih =>
      intro c
      rw [List.foldl_cons, ih]
      constructor
      · rintro ⟨h1, h2⟩
        rw [Nat.max_eq_zero_iff] at h1
        refine ⟨h1.1, ?_⟩
        intro v hv
        rcases List.mem_cons.1 hv with rfl | hv
        · exact h1.2
        · exact h2 v hv
      · rintro ⟨h1, h2⟩
        refine ⟨?_, fun v hv => h2 v (List.mem_cons_of_mem _ hv)⟩
        rw [Nat.max_eq_zero_iff]
        exact ⟨h1, h2 d (List.mem_cons_self _ _)⟩

theorem pymax_ok_zero_iff {l : List Nat} {mx : Nat} (h : pymax l = .ok mx) :
    mx = 0 ↔ ∀ v ∈ l, v = 0 := by
  match l with
  | [] => exact absurd h (by intro h; cases h)
  | c :: cs =>
      rw [pymax_cons] at h
      injection h with h'
      subst h'
      rw [foldl_max_eq_zero_iff]
      constructor
      · rintro ⟨h1, h2⟩
        intro v hv
        rcases List.mem_cons.1 hv with rfl | hv
        · exact h1
        · exact h2 v hv
      · intro hall
        exact ⟨hall c (List.mem_cons_self _ _),
          fun v hv => hall v (List.mem_cons_of_mem _ hv)⟩

theorem gf_div_checked_error {q x y : Nat} {e : RSError}
    (h : gf_div_checked q x y = .error e) : e = .ZeroDivision := by
  unfold gf_div_checked at h
  by_cases hy : y = 0
  · rw [if_pos hy] at h
    injection h with h'
    exact h'.symm
  · rw [if_neg hy] at h
    cases h

theorem rs_correct_errata_error {q : Nat} {msg synd pos : List Nat} {e : RSError}
    (h : rs_correct_errata q msg synd pos = .error e) : e = .ZeroDivision := by
  unfold rs_correct_errata at h
  refine foldlM_error_mem _ (fun e => e = .ZeroDivision) ?_ pos msg e h
  intro b a e' hstep
  dsimp only at hstep
  cases hdc : gf_div_checked q
      (gf_poly_eval q ((gf_poly_mul q (List.reverse (synd.take pos.length))
        (pos.foldl (fun qp p =>
          gf_poly_mul q qp [(gf_exp q).getD (msg.length - 1 - p) 0, 1]) [1])).drop
        ((gf_poly_mul q (List.reverse (synd.take pos.length))
          (pos.foldl (fun qp p =>
            gf_poly_mul q qp [(gf_exp q).getD (msg.length - 1 - p) 0, 1]) [1])).length -
          pos.length))
        ((gf_exp q).getD (a + q - b.length) 0))
      (gf_mul q ((gf_exp q).getD (a + q - b.length) 0)
        (gf_poly_eval q (sliceStep2 (pos.foldl (fun qp p =>
          gf_poly_mul q qp [(gf_exp q).getD (msg.length - 1 - p) 0, 1]) [1]))
          (gf_mul q ((gf_exp q).getD (a + q - b.length) 0)
            ((gf_exp q).getD (a + q - b.length) 0)))) with
  | error e2 =>
      rw [hdc] at hstep
      injection hstep with h'
      subst h'
      exact gf_div_checked_error hdc
  | ok c =>
      rw [hdc] at hstep
      cases hstep

theorem rs_find_errors_error {q : Nat} {synd : List Nat} {nmess : Nat} {e : RSError}
    (h : rs_find_errors q synd nmess = .error e) : e = .TooManyErrors := by
  unfold rs_find_errors at h
  by_cases hc : ((rs_bm q synd).1.length - 1) * 2 > synd.length
  · rw [if_pos hc] at h
    injection h with h'
    exact h'.symm
  · rw [if_neg hc] at h
    by_cases hlen : ((List.range nmess).foldl (fun acc i =>
        if gf_poly_eval q (rs_bm q synd).1 ((gf_exp q).getD (q - 1 - i) 0) = 0 then
          acc ++ [nmess - 1 - i] else acc) []).length ≠ (rs_bm q synd).1.length - 1
    · rw [if_pos hlen] at h
      cases h
    · rw [if_neg hlen] at h
      cases h

theorem rs_decode_core_error {q : Nat} {ep m : List Nat} {nsym : Nat} {e : RSError}
    (h : rs_decode_core q ep m nsym = .error e) :
    e = .MaxEmpty ∨ e = .TooManyErrors ∨ e = .CouldNotLocate ∨
      e = .ZeroDivision ∨ e = .CouldNotCorrect := by
  unfold rs_decode_core at h
  dsimp only at h
  cases h1 : pymax (rs_calc_syndromes q m nsym) with
  | error e1 =>
      rw [h1] at h
      dsimp only at h
      injection h with h'
      subst h'
      exact Or.inl (pymax_error h1).1
  | ok mx =>
      rw [h1] at h
      dsimp only at h
      by_cases hmx : mx = 0
      · rw [if_pos hmx] at h
        cases h
      · rw [if_neg hmx] at h
        cases h2 : rs_find_errors q
            (rs_forney_syndromes q (rs_calc_syndromes q m nsym) ep m.length)
            m.length with
        | error e2 =>
            rw [h2] at h
            dsimp only at h
            injection h with h'
            subst h'
            exact Or.inr (Or.inl (rs_find_errors_error h2))
        | ok opt =>
            rw [h2] at h
            cases opt with
            | none =>
                dsimp only at h
                injection h with h'
                subst h'
                exact Or.inr (Or.inr (Or.inl rfl))
            | some err_pos =>
                dsimp only at h
                cases h3 : rs_correct_errata q m (rs_calc_syndromes q m nsym)
                    (ep ++ err_pos) with
                | error e3 =>
                    rw [h3] at h
                    dsimp only at h
                    injection h with h'
                    subst h'
                    exact Or.inr (Or.inr (Or.inr (Or.inl (rs_correct_errata_error h3))))
                | ok corrected =>
                    rw [h3] at h
                    dsimp only at h
                    cases h4 : pymax (rs_calc_syndromes q corrected nsym) with
                    | error e4 =>
                        rw [h4] at h
                        dsimp only at h
                        injection h with h'
                        subst h'
                        exact Or.inl (pymax_error h4).1
                    | ok mx2 =>
                        rw [h4] at h
                        dsimp only at h
                        by_cases hmx2 : mx2 > 0
                        · rw [if_pos hmx2] at h
                          injection h with h'
                          subst h'
                          exact Or.inr (Or.inr (Or.inr (Or.inr rfl)))
                        · rw [if_neg hmx2] at h
                          cases h

theorem byteWrite_error {buf : List Nat} {i v : Nat} {e : RSError}
    (h : byteWrite buf i v = .error e) : e = .ByteOutOfRange := by
  unfold byteWrite at h
  by_cases hv : v < 256
  · rw [if_pos hv] at h
    cases h
  · rw [if_neg hv] at h
    injection h with h'
    exact h'.symm

/-- When the length guard of `rs_encode_msg` passes, the only possible
failure is the bytearray byte-range check. -/
theorem rs_encode_msg_cases (q : Nat) (msg_in : List Nat) (nsym : Nat)
    (hc : ¬(msg_in.length + nsym > q - 1)) :
    rs_encode_msg q msg_in nsym = .error .ByteOutOfRange ∨
      ∃ out, rs_encode_msg q msg_in nsym = .ok out := by
  unfold rs_encode_msg
  rw [if_neg hc]
  dsimp only
  by_cases hall : msg_in.all (fun v => v < 256) = true
  · rw [if_pos hall]
    cases hf : (List.range msg_in.length).foldlM (fun buf i =>
        let coef := buf.getD i 0
        if coef ≠ 0 then
          (List.range (rs_generator_poly q nsym).length).foldlM (fun buf j =>
            byteWrite buf (i + j) (buf.getD (i + j) 0 ^^^
              gf_mul q ((rs_generator_poly q nsym).getD j 0) coef)) buf
        else pure buf) (msg_in ++ List.replicate nsym 0) with
    | error e =>
        dsimp only
        left
        have he : e = .ByteOutOfRange := by
          refine foldlM_error_mem _ (fun e => e = .ByteOutOfRange) ?_ _ _ _ hf
          intro b a e' hstep
          dsimp only at hstep
          by_cases hcoef : b.getD a 0 ≠ 0
          · rw [if_pos hcoef] at hstep
            refine foldlM_error_mem _ (fun e => e = .ByteOutOfRange) ?_ _ _ _ hstep
            intro b' a' e'' hw
            exact byteWrite_error hw
          · rw [if_neg hcoef] at hstep
            cases hstep
        rw [he]
    | ok out =>
        dsimp only
        right
        exact ⟨msg_in ++ out.drop msg_in.length, rfl⟩
  · rw [if_neg hall]
    left
    rfl

/-- Claim C1 (evidence for the code bug): for the codec with `q = 8`
(`n = 7, k = 5, nsym = 2`) the encoder maps the in-range message `[1]` to
the codeword `[1, 6, 3]`, and decoding that uncorrupted codeword does not
return `[1]` but fails with `ReedSolomonError("Could not locate error")`:
the generator polynomial uses the roots `α^1..α^nsym` while the syndromes
are evaluated at `α^0..α^(nsym-1)`, so `decode(encode(m)) = m` fails. -/
theorem claim_C1_roundtrip_broken :
    rs_encode_msg 8 [1] 2 = .ok [1, 6, 3] ∧
      rs_correct_msg 8 [1, 6, 3] 2 = .error .CouldNotLocate :=
  ⟨rfl, rfl⟩

/-- Claim C2 (evidence for the code bug): for the codec with `q = 4`
(`n = 3, k = 1, nsym = 2`), with `e = 0` changed positions and `f = 0`
erasures (so `2*e + f = 0 ≤ nsym`), decoding the unmodified codeword of the
message `[1]` must return `[1]`, but it fails with
`ReedSolomonError("Could not locate error")`. -/
theorem claim_C2_bound_broken :
    rs_encode_msg 4 [1] 2 = .ok [1, 1, 1] ∧
      rs_correct_msg 4 [1, 1, 1] 2 = .error .CouldNotLocate :=
  ⟨rfl, rfl⟩

/-- Claim C3, counterexample to the claim as stated: for the supported field
size `q = 512` the encoder buffer is a Python `bytearray`, so encoding the
in-range message `[256]` (with `nsym = 2`, `len + nsym = 3 ≤ n = 511`)
raises `ValueError` at the slice assignment `msg_out[:len(msg_in)] = msg_in`
instead of producing a codeword. -/
theorem claim_C3_counterexample :
    rs_encode_msg 512 [256] 2 = .error .ByteOutOfRange := rfl

/-- Claim C3 (amended: restricted to byte-representable fields `q ≤ 256`):
for every supported `q ≤ 256` and every message of symbols in `[0, q)` with
`len(message) + nsym ≤ n`, the encoder succeeds; its output is the message
followed by the polynomial-division remainder of `message ++ nsym zeros` by
the generator, has length `len(message) + nsym`, and begins with the
message verbatim. -/
theorem claim_C3_systematic_encoding : ∀ q ∈ supported_sizes, q ≤ 256 →
    ∀ (msg_in : List Nat) (nsym : Nat), (∀ v ∈ msg_in, v < q) →
      msg_in.length + nsym ≤ q - 1 →
      rs_encode_msg q msg_in nsym =
        .ok (msg_in ++ polyRem q (rs_generator_poly q nsym) msg_in.length
          (msg_in ++ List.replicate nsym 0)) ∧
      (msg_in ++ polyRem q (rs_generator_poly q nsym) msg_in.length
        (msg_in ++ List.replicate nsym 0)).length = msg_in.length + nsym ∧
      (msg_in ++ polyRem q (rs_generator_poly q nsym) msg_in.length
        (msg_in ++ List.replicate nsym 0)).take msg_in.length = msg_in := by
  intro q hqmem hq256 msg_in nsym hmsg hlen
  have hq := goodQ_of_supported hqmem
  have hq4 := hq.four_le
  refine ⟨rs_encode_msg_eq hq hq256 hmsg hlen, ?_, List.take_left _ _⟩
  rw [List.length_append, polyRem_length q _ msg_in.length _ (by
    rw [rs_generator_poly_length, List.length_append, List.length_replicate]
    omega)]
  rw [List.length_append, List.length_replicate]
  omega

/-- Witness for claim C3 at `q = 8`, message `[1, 2]`, `nsym = 2`. -/
theorem claim_C3_witness :
    rs_encode_msg 8 [1, 2] 2 = .ok ([1, 2] ++ polyRem 8 (rs_generator_poly 8 2) 2
      ([1, 2] ++ List.replicate 2 0)) :=
  (claim_C3_systematic_encoding 8 (by decide) (by decide) [1, 2] 2 (by decide)
    (by decide)).1

/-- Claim C5: the Berlekamp-Massey step reports `len(err_poly) - 1` located
errors and `rs_find_errors` fails with TooManyErrors exactly when twice that
count exceeds the length of the (Forney-transformed) syndrome sequence fed
to it. -/
theorem claim_C5_bm_error_bound : ∀ (q : Nat) (synd : List Nat) (nmess : Nat),
    rs_find_errors q synd nmess = .error .TooManyErrors ↔
      ((rs_bm q synd).1.length - 1) * 2 > synd.length := by
  intro q synd nmess
  constructor
  · intro h
    by_contra hc
    unfold rs_find_errors at h
    rw [if_neg hc] at h
    dsimp only at h
    by_cases hl : ((List.range nmess).foldl (fun acc i =>
        if gf_poly_eval q (rs_bm q synd).1 ((gf_exp q).getD (q - 1 - i) 0) = 0 then
          acc ++ [nmess - 1 - i] else acc) []).length ≠ (rs_bm q synd).1.length - 1
    · rw [if_pos hl] at h
      cases h
    · rw [if_neg hl] at h
      cases h
  · intro h
    unfold rs_find_errors
    rw [if_pos h]

/-- Claim C4: on every received block whose decoding reaches the
errata-correction step (length guard, erasure guard, nonzero syndromes,
successful error location and successful errata correction), `rs_correct_msg`
recomputes the syndromes of the corrected buffer: if any is nonzero it fails
with CorrectionVerificationFailure ("Could not correct message"), otherwise
it returns the corrected buffer with its `nsym` trailing parity symbols
stripped. -/
theorem claim_C4_verification : ∀ (q : Nat) (msg_in : List Int) (nsym m0 : Nat)
    (err_pos corrected : List Nat),
    msg_in.length ≤ q - 1 →
    (erase_positions msg_in).length ≤ nsym →
    pymax (rs_calc_syndromes q (zero_erasures msg_in) nsym) = .ok m0 →
    m0 ≠ 0 →
    rs_find_errors q (rs_forney_syndromes q
      (rs_calc_syndromes q (zero_erasures msg_in) nsym) (erase_positions msg_in)
      (zero_erasures msg_in).length) (zero_erasures msg_in).length =
        .ok (some err_pos) →
    rs_correct_errata q (zero_erasures msg_in)
      (rs_calc_syndromes q (zero_erasures msg_in) nsym)
      (erase_positions msg_in ++ err_pos) = .ok corrected →
    rs_correct_msg q msg_in nsym =
      if (rs_calc_syndromes q corrected nsym).any (fun s => s ≠ 0) then
        .error .CouldNotCorrect
      else .ok (corrected.take (corrected.length - nsym)) := by
  intro q msg_in nsym m0 err_pos corrected hlen herase hsynd hm0 hfind herrata
  have hsyndlen : ∀ msg : List Nat,
      (rs_calc_syndromes q msg nsym).length = nsym := by
    intro msg
    unfold rs_calc_syndromes
    simp
  have hnsym : nsym ≠ 0 := by
    intro h0
    subst h0
    have hnil : rs_calc_syndromes q (zero_erasures msg_in) 0 = [] :=
      List.eq_nil_of_length_eq_zero (hsyndlen _)
    rw [hnil] at hsynd
    cases hsynd
  unfold rs_correct_msg
  rw [if_neg (by omega)]
  dsimp only
  rw [if_neg (by omega)]
  unfold rs_decode_core
  dsimp only
  rw [hsynd]
  dsimp only
  rw [if_neg hm0, hfind]
  dsimp only
  rw [herrata]
  dsimp only
  have hcne : rs_calc_syndromes q corrected nsym ≠ [] := by
    intro h
    have := hsyndlen corrected
    rw [h] at this
    simp at this
    omega
  obtain ⟨c, cs, hcc⟩ := List.exists_cons_of_ne_nil hcne
  rw [hcc, pymax_cons]
  dsimp only
  have hiff : cs.foldl Nat.max c = 0 ↔ ∀ v ∈ c :: cs, v = 0 :=
    pymax_ok_zero_iff (pymax_cons c cs)
  by_cases hz : ∀ v ∈ c :: cs, v = 0
  · have hmx0 : cs.foldl Nat.max c = 0 := hiff.mpr hz
    rw [if_neg (by omega)]
    have hany : ((c :: cs).any fun s => s ≠ 0) = false := by
      rw [List.any_eq_false]
      intro v hv
      simp only [decide_eq_true_eq]
      intro hne
      exact hne (hz v hv)
    rw [if_neg (by rw [hany]; intro h; cases h)]
    unfold sliceDropLast
    rw [if_neg hnsym]
  · have hmx0 : cs.foldl Nat.max c ≠ 0 := fun h => hz (hiff.mp h)
    rw [if_pos (by omega)]
    have hany : ((c :: cs).any fun s => s ≠ 0) = true := by
      rw [List.any_eq_true]
      push_neg at hz
      obtain ⟨v, hv, hvne⟩ := hz
      exact ⟨v, hv, by simpa using hvne⟩
    rw [if_pos hany]

/-- Witness for claim C4: the block `[1, 3, 6]` over `q = 8` with `nsym = 2`
reaches the errata-correction step (one located error at position 2), the
recomputed syndromes are all zero, and the stripped corrected buffer `[1]`
is returned. -/
theorem claim_C4_witness : rs_correct_msg 8 [1, 3, 6] 2 = .ok [1] := by
  rw [claim_C4_verification 8 [1, 3, 6] 2 4 [2] [1, 3, 2] (by decide) (by decide)
    (by rfl) (by decide) (by rfl) (by rfl)]
  rfl

/-- Claim C6: decoding first records the indices of the negative
(erasure-sentinel) symbols and replaces them by `0` before any syndrome
computation — the continuation runs on `zero_erasures msg_in` with position
list `erase_positions msg_in` — and fails with TooManyErasures exactly when
the number of such positions exceeds `nsym`. -/
theorem claim_C6_erasure_scan : ∀ (q : Nat) (msg_in : List Int) (nsym : Nat),
    msg_in.length ≤ q - 1 →
    ((rs_correct_msg q msg_in nsym = .error .TooManyErasures ↔
      nsym < (erase_positions msg_in).length) ∧
    ((erase_positions msg_in).length ≤ nsym →
      rs_correct_msg q msg_in nsym =
        rs_decode_core q (erase_positions msg_in) (zero_erasures msg_in) nsym)) := by
  intro q msg_in nsym hlen
  have hbase : rs_correct_msg q msg_in nsym =
      (if (erase_positions msg_in).length > nsym then
        (.error .TooManyErasures : Except RSError (List Nat))
       else rs_decode_core q (erase_positions msg_in) (zero_erasures msg_in) nsym) := by
    unfold rs_correct_msg
    rw [if_neg (by omega)]
  constructor
  · rw [hbase]
    constructor
    · intro h
      by_contra hc
      rw [if_neg (by omega)] at h
      rcases rs_decode_core_error h with h' | h' | h' | h' | h' <;> simp at h'
    · intro h
      rw [if_pos (by omega)]
  · intro h
    rw [hbase, if_neg (by omega)]

/-- Witness for claim C6: a block with three erasure sentinels and
`nsym = 2` fails with TooManyErasures. -/
theorem claim_C6_witness :
    rs_correct_msg 8 [-1, -1, -7, 1] 2 = .error .TooManyErasures :=
  (claim_C6_erasure_scan 8 [-1, -1, -7, 1] 2 (by decide)).1.mpr (by decide)

/-- Claim C7: single-block encoding fails with InputTooLong exactly when
`len(message) + nsym > n`, and single-block decoding fails with InputTooLong
exactly when the received block is longer than `n`; both checks run before
any other processing, so no other input can produce this failure. -/
theorem claim_C7_length_guards : ∀ (q nsym : Nat),
    (∀ msg_in : List Nat,
      rs_encode_msg q msg_in nsym = .error .InputTooLong ↔
        q - 1 < msg_in.length + nsym) ∧
    (∀ msg_in : List Int,
      rs_correct_msg q msg_in nsym = .error .InputTooLong ↔
        q - 1 < msg_in.length) := by
  intro q nsym
  constructor
  · intro msg_in
    constructor
    · intro h
      by_contra hc
      rcases rs_encode_msg_cases q msg_in nsym (by omega) with h' | ⟨out, h'⟩ <;>
        rw [h'] at h <;> cases h
    · intro h
      unfold rs_encode_msg
      rw [if_pos (by omega)]
  · intro msg_in
    constructor
    · intro h
      by_contra hc
      unfold rs_correct_msg at h
      rw [if_neg (by omega)] at h
      dsimp only at h
      by_cases he : (erase_positions msg_in).length > nsym
      · rw [if_pos he] at h
        cases h
      · rw [if_neg he] at h
        rcases rs_decode_core_error h with h' | h' | h' | h' | h' <;> simp at h'
    · intro h
      unfold rs_correct_msg
      rw [if_pos (by omega)]

/-- Claim C8, counterexample to the claim as stated: the exponent table does
not have length `2*n`; for `q = 4` (`n = 3`) its length is `8 = 2*q`,
not `6`. -/
theorem claim_C8_counterexample : ¬ ((gf_exp 4).length = 2 * (4 - 1)) := by decide

/-- Claim C8 (amended: the exponent table has length `2*q`, as the source's
`[1] * (self.q * 2)` builds, rather than `2*n`): for every supported field
size, `gf_exp` has length `2*q`, `gf_log` has length `q`,
`gf_exp[gf_log[x]] = x` for every nonzero `x < q`, and `gf_exp` is periodic
with period `n = q - 1` over its whole index range. -/
theorem claim_C8_table_contract : ∀ q ∈ supported_sizes,
    (gf_exp q).length = 2 * q ∧ (gf_log q).length = q ∧
    (∀ x, 1 ≤ x → x < q → (gf_exp q).getD ((gf_log q).getD x 0) 0 = x) ∧
    (∀ i, q - 1 ≤ i → i < 2 * q →
      (gf_exp q).getD i 0 = (gf_exp q).getD (i - (q - 1)) 0) := by
  intro q hqmem
  have hq := goodQ_of_supported hqmem
  have hq4 := hq.four_le
  refine ⟨by rw [gf_exp_length hq]; ring, gf_log_length hq, ?_, ?_⟩
  · intro x hx1 hx2
    exact gf_exp_log hq hx1 hx2
  · intro i hi1 hi2
    have h2q : i < q * 2 := by omega
    have h2q' : i - (q - 1) < q * 2 := by omega
    rw [gf_exp_getD hq h2q, gf_exp_getD hq h2q']
    congr 1
    have hrep : i = (i - (q - 1)) + (q - 1) := by omega
    calc i % (q - 1) = ((i - (q - 1)) + (q - 1)) % (q - 1) := by rw [← hrep]
      _ = (i - (q - 1)) % (q - 1) := Nat.add_mod_right _ _

/-- Witness for claim C8 at `q = 8`, element `x = 5`. -/
theorem claim_C8_witness : (gf_exp 8).getD ((gf_log 8).getD 5 0) 0 = 5 :=
  (claim_C8_table_contract 8 (by decide)).2.2.1 5 (by decide) (by decide)

/-- Claim C9: with `nsym = 0` (`k = n`), decoding any nonempty received
block without erasure sentinels does not return the message: the syndrome
list is empty, and the zero-syndrome short-circuit takes `max([])`, which
raises a `ValueError` outside the codec's error taxonomy. -/
theorem claim_C9_nsym_zero_max_empty : ∀ (q : Nat) (msg_in : List Int),
    msg_in ≠ [] → (∀ v ∈ msg_in, 0 ≤ v) → msg_in.length ≤ q - 1 →
    rs_correct_msg q msg_in 0 = .error .MaxEmpty := by
  intro q msg_in hne hnn hlen
  have hep : erase_positions msg_in = [] := by
    unfold erase_positions
    rw [List.filter_eq_nil_iff]
    intro i hi
    rw [List.mem_range] at hi
    simp only [decide_eq_true_eq]
    have hmem : msg_in.getD i 0 ∈ msg_in := by
      rw [List.getD_eq_getElem?_getD, List.getElem?_eq_getElem hi]
      exact List.getElem_mem hi
    have := hnn _ hmem
    omega
  unfold rs_correct_msg
  rw [if_neg (by omega)]
  dsimp only
  rw [hep]
  rw [if_neg (by simp)]
  rfl

/-- Witness for claim C9. -/
theorem claim_C9_witness : rs_correct_msg 8 [1, 2] 0 = .error .MaxEmpty :=
  claim_C9_nsym_zero_max_empty 8 [1, 2] (by decide) (by decide) (by decide)

/-- Claim C10: over every supported field size, `gf_mul` never raises for
arguments in `[0, q)` (all its table subscripts are in bounds), and field
division undoes field multiplication: `gf_div (gf_mul x y) y = x` for
`x ∈ [0, q)`, `y ∈ [1, q)`. -/
theorem claim_C10_mul_div_inverse : ∀ q ∈ supported_sizes,
    (∀ x y : Nat, x < q → y < q → (gf_mul_checked q x y).isSome = true) ∧
    (∀ x y : Nat, x < q → 1 ≤ y → y < q → gf_div q (gf_mul q x y) y = x) := by
  intro q hqmem
  have hq := goodQ_of_supported hqmem
  refine ⟨?_, ?_⟩
  · intro x y hx hy
    rw [gf_mul_checked_eq hq hx hy]
    rfl
  · intro x y hx hy1 hy2
    exact gf_div_gf_mul hq hx hy1 hy2

/-- Witness for claim C10 at `q = 16`, `x = 7`, `y = 9`. -/
theorem claim_C10_witness : gf_div 16 (gf_mul 16 7 9) 9 = 7 :=
  (claim_C10_mul_div_inverse 16 (by decide)).2 7 9 (by decide) (by decide) (by decide)

end Reedsolo
